import Mathlib

/-!
# Verification of the json-lint core algorithms

A shallow embedding, in Lean 4, of the core text-position-aware structural
algorithms of the `json-lint` repository:

* the JSON diff engine (`DiffManager.deepDiff` / `diffObjects` / `diffArrays` /
  `deepEqual` in `src/js/ui/diff.js`),
* the diff projector (`DiffManager.highlightChanges` / `findLineForPath` /
  `findArrayElementLine` in `src/js/ui/diff.js`),
* the error locator (`JSONLinter.parseBetterError` / `parseError` /
  `getLineColumnFromPosition` in `src/js/linter.js`),
* the top-level linter entry points (`JSONLinter.validate` / `format` /
  `compress` in `src/js/linter.js`),
* the tree line-mapping engine (`TreeManager.createLineMapping` /
  `mapJsonStructureToLines` and its key/element locators).

JavaScript values are modelled by the inductive type `JSONValue`; JS numbers are
modelled by `Int` (none of the verified properties depend on float semantics),
JS strings that are only concatenated are modelled by `String`, and JS strings
that are scanned character by character are modelled by `List Char`.  Machine
maps (`Map`) are modelled by association lists with JS `Map.set` semantics.
Definitions follow the JavaScript sources statement by statement; deviations
forced by the modelling (e.g. JS reference equality) are noted in comments.
-/

/-- A parsed JSON value, as produced by `JSON.parse`.  Object fields are an
ordered association list (JS objects preserve insertion order); well-formed
values (`wf`) additionally have no duplicate keys, which is guaranteed for
everything `JSON.parse` returns. -/
inductive JSONValue where
  | null
  | bool (b : Bool)
  | num (n : Int)
  | str (s : String)
  | arr (items : List JSONValue)
  | obj (fields : List (String × JSONValue))

namespace JSONValue

/-- Structural (Boolean) equality on `JSONValue`.  Used to furnish a
`DecidableEq` instance (the automatic derivation does not support the nested
inductive). -/
def beqJ : JSONValue → JSONValue → Bool
  | .null, .null => true
  | .bool a, .bool b => a == b
  | .num a, .num b => a == b
  | .str a, .str b => a == b
  | .arr [], .arr [] => true
  | .arr (x :: xs), .arr (y :: ys) => beqJ x y && beqJ (.arr xs) (.arr ys)
  | .obj [], .obj [] => true
  | .obj (x :: xs), .obj (y :: ys) =>
      x.1 == y.1 && beqJ x.2 y.2 && beqJ (.obj xs) (.obj ys)
  | _, _ => false
termination_by a b => sizeOf a + sizeOf b
decreasing_by
  all_goals simp_arith
  all_goals
    (obtain ⟨x1, x2⟩ := x
     obtain ⟨y1, y2⟩ := y
     simp_arith)

theorem beqJ_eq : ∀ a b : JSONValue, beqJ a b = true ↔ a = b := by
  intro a b
  induction a, b using beqJ.induct with
  | case9 a b h1 h2 h3 h4 h5 h6 h7 h8 =>
    cases a <;> cases b <;> try (simp [beqJ]; done)
    all_goals
      (rename_i l1 l2; cases l1 <;> cases l2 <;>
        first
          | (simp [beqJ]; done)
          | exact (h6 _ _ _ _ rfl rfl).elim
          | exact (h8 _ _ _ _ rfl rfl).elim)
  | _ => simp_all [beqJ, Prod.ext_iff]

instance : DecidableEq JSONValue := fun a b =>
  decidable_of_iff (beqJ a b = true) (beqJ_eq a b)

/-- `sizeOf` bound for object fields, used for termination of the recursive
algorithms. -/
theorem sizeOf_mem_fields {fs : List (String × JSONValue)} {k : String}
    {v : JSONValue} (h : (k, v) ∈ fs) : sizeOf v < sizeOf (JSONValue.obj fs) := by
  have h1 : sizeOf (k, v) < sizeOf fs := List.sizeOf_lt_of_mem h
  have h2 : sizeOf v < sizeOf (k, v) := by simp_arith
  simp only [JSONValue.obj.sizeOf_spec]
  omega

/-- `sizeOf` bound for array items. -/
theorem sizeOf_mem_items {l : List JSONValue} {v : JSONValue} (h : v ∈ l) :
    sizeOf v < sizeOf (JSONValue.arr l) := by
  have h1 : sizeOf v < sizeOf l := List.sizeOf_lt_of_mem h
  simp only [JSONValue.arr.sizeOf_spec]
  omega

/-- The JavaScript `typeof` operator on JSON values.  Note that `null`, arrays
and objects all have `typeof === 'object'`; this drives several branches of
`deepDiff` and `deepEqual`. -/
def jsTypeof : JSONValue → String
  | .null => "object"
  | .bool _ => "boolean"
  | .num _ => "number"
  | .str _ => "string"
  | .arr _ => "object"
  | .obj _ => "object"

end JSONValue

/-! ### Decimal keys for array indices

`Object.keys` on a JS array yields the decimal strings `"0"`, `"1"`, ….
`natKey` computes that decimal representation; its injectivity (via the
`keyVal` round trip) gives that array index keys never collide. -/

/-- Big-endian decimal digit characters of `n`, prepended to `acc`
(the standard repeated-division algorithm). -/
def natKeyAux (n : Nat) (acc : List Char) : List Char :=
  if n < 10 then Nat.digitChar n :: acc
  else natKeyAux (n / 10) (Nat.digitChar (n % 10) :: acc)
termination_by n
decreasing_by exact Nat.div_lt_self (by omega) (by omega)

/-- The decimal string for a JS array index (`String(i)` / template `${i}`). -/
def natKey (n : Nat) : String := ⟨natKeyAux n []⟩

/-- Value of a big-endian decimal digit string. -/
def keyVal (cs : List Char) : Nat :=
  cs.foldl (fun acc c => acc * 10 + (c.toNat - 48)) 0

theorem natKeyAux_append (n : Nat) (acc : List Char) :
    natKeyAux n acc = natKeyAux n [] ++ acc := by
  induction n using Nat.strong_induction_on generalizing acc with
  | _ n ih =>
    by_cases h : n < 10
    · simp [natKeyAux, h]
    · have hlt : n / 10 < n := Nat.div_lt_self (by omega) (by omega)
      conv_lhs => rw [natKeyAux, if_neg h]
      conv_rhs => rw [natKeyAux, if_neg h]
      rw [ih _ hlt, ih _ hlt (Nat.digitChar (n % 10) :: [])]
      simp

theorem keyVal_digit {d : Nat} (h : d < 10) : (Nat.digitChar d).toNat - 48 = d := by
  interval_cases d <;> rfl

theorem keyVal_natKeyAux (n : Nat) : keyVal (natKeyAux n []) = n := by
  induction n using Nat.strong_induction_on with
  | _ n ih =>
    by_cases h : n < 10
    · simp [natKeyAux, h, keyVal, keyVal_digit h]
    · rw [natKeyAux, if_neg h, natKeyAux_append]
      have hlt : n / 10 < n := Nat.div_lt_self (by omega) (by omega)
      have hmod : n % 10 < 10 := Nat.mod_lt _ (by omega)
      have := ih (n / 10) hlt
      simp only [keyVal, List.foldl_append, List.foldl] at this ⊢
      rw [this, keyVal_digit hmod]
      omega

theorem natKey_injective : Function.Injective natKey := by
  intro m n h
  have hdata : natKeyAux m [] = natKeyAux n [] := congrArg String.data h
  have := keyVal_natKeyAux m
  rw [hdata, keyVal_natKeyAux n] at this
  exact this.symm

namespace JSONValue

/-- `Object.entries`-style view used by the diff: real fields for objects,
decimal index keys for arrays (JS arrays expose their indices as own
enumerable string keys), nothing for primitives. -/
def entriesOf : JSONValue → List (String × JSONValue)
  | .obj fs => fs
  | .arr l => l.enum.map (fun p => (natKey p.1, p.2))
  | _ => []

/-- `Object.keys`. -/
def keys (x : JSONValue) : List String := (entriesOf x).map Prod.fst

/-- JS property read `x[k]`; the `.null` default is never reached when
`hasKey x k` holds (the only situations in which the sources read a
property). -/
def jsGet (x : JSONValue) (k : String) : JSONValue :=
  ((entriesOf x).lookup k).getD .null

/-- The JS `in` operator (`k in x`). -/
def hasKey (x : JSONValue) (k : String) : Bool :=
  ((entriesOf x).lookup k).isSome

theorem lookup_mem {k : String} {v : JSONValue}
    {es : List (String × JSONValue)} (h : es.lookup k = some v) : (k, v) ∈ es := by
  induction es with
  | nil => simp [List.lookup] at h
  | cons e es ih =>
    obtain ⟨a, b⟩ := e
    rw [List.lookup] at h
    by_cases hk : k = a
    · subst hk
      simp at h
      simp [h]
    · have : (k == a) = false := beq_false_of_ne hk
      rw [this] at h
      simp only [List.mem_cons]
      exact Or.inr (ih h)

theorem lookup_isSome_iff {k : String} {es : List (String × JSONValue)} :
    (es.lookup k).isSome = true ↔ k ∈ es.map Prod.fst := by
  induction es with
  | nil => simp [List.lookup]
  | cons e es ih =>
    obtain ⟨a, b⟩ := e
    rw [List.lookup]
    by_cases hk : k = a
    · subst hk; simp
    · have : (k == a) = false := beq_false_of_ne hk
      rw [this]
      simp [ih, hk]

theorem hasKey_iff_mem_keys {x : JSONValue} {k : String} :
    hasKey x k = true ↔ k ∈ keys x := lookup_isSome_iff

theorem mem_of_mem_enum {α : Type _} {l : List α} {i : Nat} {a : α}
    (h : (i, a) ∈ l.enum) : a ∈ l := by
  obtain ⟨hlt, heq⟩ := List.mem_enum h
  exact heq ▸ List.getElem_mem hlt

theorem mem_entriesOf_sizeOf {x : JSONValue} {k : String} {v : JSONValue}
    (h : (k, v) ∈ entriesOf x) : sizeOf v < sizeOf x := by
  cases x with
  | obj fs => exact sizeOf_mem_fields h
  | arr l =>
    simp only [entriesOf, List.mem_map] at h
    obtain ⟨⟨i, w⟩, hmem, heq⟩ := h
    injection heq with h1 h2
    subst h2
    exact sizeOf_mem_items (mem_of_mem_enum hmem)
  | null => simp [entriesOf] at h
  | bool b => simp [entriesOf] at h
  | num n => simp [entriesOf] at h
  | str s => simp [entriesOf] at h

theorem sizeOf_jsGet {x : JSONValue} {k : String} (h : hasKey x k = true) :
    sizeOf (jsGet x k) < sizeOf x := by
  unfold hasKey at h
  obtain ⟨v, hv⟩ := Option.isSome_iff_exists.mp h
  unfold jsGet
  rw [hv]
  exact mem_entriesOf_sizeOf (lookup_mem hv)

/-- Boolean no-duplicates test on key lists. -/
def nodupB : List String → Bool
  | [] => true
  | k :: ks => (!ks.contains k) && nodupB ks

theorem nodupB_iff {ks : List String} : nodupB ks = true ↔ ks.Nodup := by
  induction ks with
  | nil => simp [nodupB]
  | cons k ks ih => simp [nodupB, ih, List.nodup_cons]

/-- Well-formedness: every object along the value has duplicate-free keys.
`JSON.parse` only produces such values (later duplicate keys overwrite
earlier ones). -/
def wf : JSONValue → Bool
  | .null => true
  | .bool _ => true
  | .num _ => true
  | .str _ => true
  | .arr l => l.attach.all fun x => wf x.1
  | .obj fs => nodupB (fs.map Prod.fst) && fs.attach.all fun x => wf x.1.2
decreasing_by
  · exact sizeOf_mem_items x.2
  · exact sizeOf_mem_fields (Prod.mk.eta (p := x.1) ▸ x.2)

theorem wf_arr_iff {l : List JSONValue} :
    wf (JSONValue.arr l) = true ↔ ∀ v ∈ l, wf v = true := by
  rw [wf]
  simp

theorem wf_obj_iff {fs : List (String × JSONValue)} :
    wf (JSONValue.obj fs) = true ↔
      (fs.map Prod.fst).Nodup ∧ ∀ e ∈ fs, wf e.2 = true := by
  rw [wf]
  simp [nodupB_iff]

/-- The keys exposed by `entriesOf` are duplicate-free on well-formed values:
object keys by `wf`, array index keys by injectivity of the decimal
representation. -/
theorem nodup_keys_of_wf {x : JSONValue} (h : wf x = true) : (keys x).Nodup := by
  cases x with
  | obj fs => exact ((wf_obj_iff).mp h).1
  | arr l =>
    show ((l.enum.map fun p => (natKey p.1, p.2)).map Prod.fst).Nodup
    rw [List.map_map]
    have : (Prod.fst ∘ fun p : Nat × JSONValue => (natKey p.1, p.2)) =
        (natKey ∘ Prod.fst) := rfl
    rw [this, ← List.map_map, List.enum_map_fst]
    exact (List.nodup_range _).map natKey_injective
  | null => simp [keys, entriesOf]
  | bool b => simp [keys, entriesOf]
  | num n => simp [keys, entriesOf]
  | str s => simp [keys, entriesOf]

/-- Sub-values reachable through `entriesOf` stay well-formed. -/
theorem wf_of_mem_entriesOf {x : JSONValue} {k : String} {v : JSONValue}
    (hwf : wf x = true) (h : (k, v) ∈ entriesOf x) : wf v = true := by
  cases x with
  | obj fs => exact (wf_obj_iff.mp hwf).2 _ h
  | arr l =>
    simp only [entriesOf, List.mem_map] at h
    obtain ⟨⟨i, w⟩, hmem, heq⟩ := h
    injection heq with h1 h2
    subst h2
    exact (wf_arr_iff.mp hwf) _ (mem_of_mem_enum hmem)
  | null => simp [entriesOf] at h
  | bool b => simp [entriesOf] at h
  | num n => simp [entriesOf] at h
  | str s => simp [entriesOf] at h

theorem wf_jsGet {x : JSONValue} {k : String} (hwf : wf x = true)
    (h : hasKey x k = true) : wf (jsGet x k) = true := by
  unfold hasKey at h
  obtain ⟨v, hv⟩ := Option.isSome_iff_exists.mp h
  unfold jsGet
  rw [hv]
  exact wf_of_mem_entriesOf hwf (lookup_mem hv)

/-- `Array.isArray`. -/
def isArr : JSONValue → Bool
  | .arr _ => true
  | _ => false

/-- The element list of an array value (only read under `isArr`). -/
def itemsOf : JSONValue → List JSONValue
  | .arr l => l
  | _ => []

/-- JS `x == null` (for JSON values: exactly the `null` value). -/
def isNullJ : JSONValue → Bool
  | .null => true
  | _ => false

theorem sizeOf_mem_itemsOf {x v : JSONValue} (h : v ∈ itemsOf x) :
    sizeOf v < sizeOf x := by
  cases x with
  | arr l => exact sizeOf_mem_items h
  | null => simp [itemsOf] at h
  | bool b => simp [itemsOf] at h
  | num n => simp [itemsOf] at h
  | str s => simp [itemsOf] at h
  | obj fs => simp [itemsOf] at h

theorem sizeOf_jsGet_lt {x : JSONValue} (k : String) (hn : isNullJ x = false)
    (ht : jsTypeof x = "object") : sizeOf (jsGet x k) < sizeOf x := by
  cases x with
  | null => simp [isNullJ] at hn
  | bool b => simp [jsTypeof] at ht
  | num n => simp [jsTypeof] at ht
  | str s => simp [jsTypeof] at ht
  | arr l =>
    unfold jsGet
    cases hl : (entriesOf (JSONValue.arr l)).lookup k with
    | some v =>
      simp only [Option.getD_some]
      exact mem_entriesOf_sizeOf (lookup_mem hl)
    | none =>
      have : sizeOf (List.nil (α := JSONValue)) ≤ sizeOf l := by
        cases l <;> simp_arith
      simp only [Option.getD_none, JSONValue.arr.sizeOf_spec]
      simp_arith at this ⊢
      omega
  | obj fs =>
    unfold jsGet
    cases hl : (entriesOf (JSONValue.obj fs)).lookup k with
    | some v =>
      simp only [Option.getD_some]
      exact mem_entriesOf_sizeOf (lookup_mem hl)
    | none =>
      have : sizeOf (List.nil (α := String × JSONValue)) ≤ sizeOf fs := by
        cases fs <;> simp_arith
      simp only [Option.getD_none, JSONValue.obj.sizeOf_spec]
      simp_arith at this ⊢
      omega

/-- `DiffManager.deepEqual` (diff.js lines 585–611), used by the array diff.

The JS reference-equality shortcut `a === b` is modelled by structural
equality: on primitives `===` is value equality, and on containers
reference equality implies structural equality, while a structurally equal
pair that is not reference-equal proceeds to the structural comparison below
and yields `true` anyway, so the observable result agrees.

`for (const key of keysA)` with reads `a[key]`/`b[key]` is modelled by a
traversal of `entriesOf a` projected to its key; the two iterations coincide
because `keys a = (entriesOf a).map Prod.fst`. -/
def deepEqual (a b : JSONValue) : Bool :=
  if a = b then true
  else if isNullJ a || isNullJ b then false
  else if jsTypeof a ≠ jsTypeof b then false
  else if h4 : isArr a && isArr b then
    (itemsOf a).length == (itemsOf b).length &&
      ((itemsOf a).zip (itemsOf b)).attach.all fun p => deepEqual p.1.1 p.1.2
  else if h5 : jsTypeof a = "object" then
    (keys a).length == (keys b).length &&
      (entriesOf a).attach.all fun e =>
        (keys b).contains e.1.1 && deepEqual (jsGet a e.1.1) (jsGet b e.1.1)
  else false
termination_by sizeOf a + sizeOf b
decreasing_by
  · obtain ⟨⟨x, y⟩, hp⟩ := p
    obtain ⟨hx, hy⟩ := List.of_mem_zip hp
    have := sizeOf_mem_itemsOf hx
    have := sizeOf_mem_itemsOf hy
    simp only
    omega
  · rename_i h1 h2 h3
    simp only [Bool.or_eq_true, not_or, Bool.not_eq_true] at h2
    simp only [ne_eq, Decidable.not_not] at h3
    have hka : hasKey a e.1.1 = true := by
      unfold hasKey
      rw [lookup_isSome_iff]
      exact List.mem_map_of_mem Prod.fst e.2
    have ha := sizeOf_jsGet hka
    have hb := sizeOf_jsGet_lt e.1.1 h2.2 (h3 ▸ h5)
    omega

/-- A value that `typeof` reports as `'object'` and that is not `null`:
exactly arrays and objects. -/
def isCont : JSONValue → Bool
  | .arr _ => true
  | .obj _ => true
  | _ => false

theorem isCont_iff {x : JSONValue} :
    isCont x = true ↔ (isNullJ x = false ∧ jsTypeof x = "object") := by
  cases x <;> simp [isCont, isNullJ, jsTypeof]

theorem sizeOf_jsGet_lt_cont {x : JSONValue} (k : String)
    (h : isCont x = true) : sizeOf (jsGet x k) < sizeOf x :=
  sizeOf_jsGet_lt k (isCont_iff.mp h).1 (isCont_iff.mp h).2

theorem hasKey_of_mem_keys {x : JSONValue} {k : String} (h : k ∈ keys x) :
    hasKey x k = true := by
  unfold hasKey
  rw [lookup_isSome_iff]
  exact h

/-- Mathematical specification of what `deepEqual` computes on well-formed
values: primitives are compared by value, and containers (arrays and objects
alike, since JS arrays expose index keys) are compared as finite maps from
keys to recursively equal values. -/
def mapEq (a b : JSONValue) : Prop :=
  if isCont a = true ∧ isCont b = true then
    (keys a).Perm (keys b) ∧
      ∀ k ∈ keys a, mapEq (jsGet a k) (jsGet b k)
  else a = b
termination_by sizeOf a + sizeOf b
decreasing_by
  rename_i hc hk
  have h1 : sizeOf (jsGet a k) < sizeOf a := sizeOf_jsGet (hasKey_of_mem_keys hk)
  have h2 : sizeOf (jsGet b k) < sizeOf b := sizeOf_jsGet_lt_cont k hc.2
  omega

theorem mapEq_of_not_cont {a b : JSONValue}
    (h : ¬(isCont a = true ∧ isCont b = true)) : mapEq a b ↔ a = b := by
  rw [mapEq, if_neg h]

theorem mapEq_cont {a b : JSONValue} (h : isCont a = true ∧ isCont b = true) :
    mapEq a b ↔ ((keys a).Perm (keys b) ∧
      ∀ k ∈ keys a, mapEq (jsGet a k) (jsGet b k)) := by
  rw [mapEq, if_pos h]

theorem mapEq_refl (a : JSONValue) : mapEq a a := by
  have H : ∀ n (a : JSONValue), sizeOf a ≤ n → mapEq a a := by
    intro n
    induction n using Nat.strong_induction_on with
    | _ n ih =>
      intro a ha
      by_cases hc : isCont a = true ∧ isCont a = true
      · rw [mapEq_cont hc]
        refine ⟨List.Perm.refl _, fun k hk => ?_⟩
        have hlt : sizeOf (jsGet a k) < sizeOf a :=
          sizeOf_jsGet (hasKey_of_mem_keys hk)
        exact ih (sizeOf (jsGet a k)) (by omega) _ le_rfl
      · rw [mapEq_of_not_cont hc]
  exact H (sizeOf a) a le_rfl

theorem mapEq_symm {a b : JSONValue} (h : mapEq a b) : mapEq b a := by
  have H : ∀ n (a b : JSONValue), sizeOf a + sizeOf b ≤ n → mapEq a b → mapEq b a := by
    intro n
    induction n using Nat.strong_induction_on with
    | _ n ih =>
      intro a b hn hab
      by_cases hc : isCont a = true ∧ isCont b = true
      · obtain ⟨hperm, hvals⟩ := (mapEq_cont hc).mp hab
        rw [mapEq_cont ⟨hc.2, hc.1⟩]
        refine ⟨hperm.symm, fun k hk => ?_⟩
        have hka : k ∈ keys a := hperm.mem_iff.mpr hk
        have h1 : sizeOf (jsGet a k) < sizeOf a :=
          sizeOf_jsGet (hasKey_of_mem_keys hka)
        have h2 : sizeOf (jsGet b k) < sizeOf b :=
          sizeOf_jsGet (hasKey_of_mem_keys hk)
        exact ih (sizeOf (jsGet a k) + sizeOf (jsGet b k)) (by omega) _ _ le_rfl
          (hvals k hka)
      · rw [mapEq_of_not_cont hc] at hab
        subst hab
        exact mapEq_refl a
  exact H (sizeOf a + sizeOf b) a b le_rfl h

theorem mapEq_trans {a b c : JSONValue} (h1 : mapEq a b) (h2 : mapEq b c) :
    mapEq a c := by
  have H : ∀ n (a b c : JSONValue), sizeOf a + sizeOf b + sizeOf c ≤ n →
      mapEq a b → mapEq b c → mapEq a c := by
    intro n
    induction n using Nat.strong_induction_on with
    | _ n ih =>
      intro a b c hn hab hbc
      by_cases hcab : isCont a = true ∧ isCont b = true
      · obtain ⟨hperm1, hvals1⟩ := (mapEq_cont hcab).mp hab
        by_cases hcbc : isCont b = true ∧ isCont c = true
        · obtain ⟨hperm2, hvals2⟩ := (mapEq_cont hcbc).mp hbc
          rw [mapEq_cont ⟨hcab.1, hcbc.2⟩]
          refine ⟨hperm1.trans hperm2, fun k hk => ?_⟩
          have hkb : k ∈ keys b := hperm1.mem_iff.mp hk
          have s1 : sizeOf (jsGet a k) < sizeOf a :=
            sizeOf_jsGet (hasKey_of_mem_keys hk)
          have s2 : sizeOf (jsGet b k) < sizeOf b :=
            sizeOf_jsGet (hasKey_of_mem_keys hkb)
          have s3 : sizeOf (jsGet c k) < sizeOf c :=
            sizeOf_jsGet (hasKey_of_mem_keys (hperm2.mem_iff.mp hkb))
          exact ih (sizeOf (jsGet a k) + sizeOf (jsGet b k) + sizeOf (jsGet c k))
            (by omega) _ _ _ le_rfl (hvals1 k hk) (hvals2 k hkb)
        · rw [mapEq_of_not_cont hcbc] at hbc
          exact hbc ▸ hab
      · rw [mapEq_of_not_cont hcab] at hab
        exact hab ▸ hbc
  exact H (sizeOf a + sizeOf b + sizeOf c) a b c le_rfl h1 h2

theorem attach_all {α : Type _} (l : List α) (p : α → Bool) :
    (l.attach.all fun e => p e.1) = l.all p := by
  rw [Bool.eq_iff_iff]
  simp [List.all_eq_true]

theorem isArr_exists {a : JSONValue} (h : isArr a = true) :
    ∃ xs, a = JSONValue.arr xs := by
  cases a <;> simp_all [isArr]

theorem keys_arr (xs : List JSONValue) :
    keys (JSONValue.arr xs) = (List.range xs.length).map natKey := by
  show ((xs.enum.map fun p => (natKey p.1, p.2)).map Prod.fst) = _
  rw [List.map_map]
  have : (Prod.fst ∘ fun p : Nat × JSONValue => (natKey p.1, p.2)) =
      (natKey ∘ Prod.fst) := rfl
  rw [this, ← List.map_map, List.enum_map_fst]

theorem lookup_enumFrom_natKey (xs : List JSONValue) : ∀ (s i : Nat)
    (h : i < xs.length),
    ((xs.enumFrom s).map (fun p => (natKey p.1, p.2))).lookup (natKey (s + i)) =
      some (xs.get ⟨i, h⟩) := by
  induction xs with
  | nil => intro s i h; simp at h
  | cons x xs ih =>
    intro s i h
    match i with
    | 0 =>
      simp only [List.enumFrom, List.map, List.lookup, Nat.add_zero, beq_self_eq_true]
      rfl
    | j + 1 =>
      have hne : natKey (s + (j + 1)) ≠ natKey s := by
        intro hcontra
        have := natKey_injective hcontra
        omega
      simp only [List.enumFrom, List.map, List.lookup, beq_false_of_ne hne]
      have : s + (j + 1) = (s + 1) + j := by omega
      rw [this]
      exact ih (s + 1) j (by simpa using h)

theorem jsGet_arr (xs : List JSONValue) (i : Nat) (h : i < xs.length) :
    jsGet (JSONValue.arr xs) (natKey i) = xs.get ⟨i, h⟩ := by
  unfold jsGet
  show (((xs.enumFrom 0).map fun p => (natKey p.1, p.2)).lookup (natKey i)).getD _ = _
  have := lookup_enumFrom_natKey xs 0 i h
  rw [Nat.zero_add] at this
  rw [this, Option.getD_some]

theorem attach_all_zip (l : List (JSONValue × JSONValue))
    (f : JSONValue → JSONValue → Bool) :
    (l.attach.all fun p => f p.1.1 p.1.2) = l.all fun p => f p.1 p.2 := by
  rw [Bool.eq_iff_iff]
  simp [List.all_eq_true]

theorem attach_all_entries (l : List (String × JSONValue)) (f : String → Bool) :
    (l.attach.all fun e => f e.1.1) = l.all fun e => f e.1 := by
  rw [Bool.eq_iff_iff]
  simp [List.all_eq_true]

theorem mem_entriesOf_jsGet {x : JSONValue} {k : String} (h : k ∈ keys x) :
    (k, jsGet x k) ∈ entriesOf x := by
  obtain ⟨v, hv⟩ := Option.isSome_iff_exists.mp (lookup_isSome_iff.mpr h)
  have : jsGet x k = v := by unfold jsGet; rw [hv, Option.getD_some]
  rw [this]
  exact lookup_mem hv

theorem all_zip_iff (f : JSONValue → JSONValue → Bool) :
    ∀ (xs ys : List JSONValue),
      ((xs.zip ys).all fun p => f p.1 p.2) = true ↔
        ∀ (i : Nat) (h1 : i < xs.length) (h2 : i < ys.length),
          f (xs.get ⟨i, h1⟩) (ys.get ⟨i, h2⟩) = true := by
  intro xs
  induction xs with
  | nil => intro ys; simp
  | cons x xs ih =>
    intro ys
    cases ys with
    | nil => simp
    | cons y ys =>
      simp only [List.zip_cons_cons, List.all_cons, Bool.and_eq_true, ih ys]
      constructor
      · rintro ⟨hxy, hrest⟩ i h1 h2
        match i with
        | 0 => exact hxy
        | j + 1 => exact hrest j (by simpa using h1) (by simpa using h2)
      · intro h
        refine ⟨h 0 (by simp) (by simp), fun j h1 h2 => ?_⟩
        exact h (j + 1) (by simpa using h1) (by simpa using h2)

/-! Branch equations for `deepEqual`, mirroring the successive early returns of
the JS function. -/

theorem deepEqual_of_eq {a b : JSONValue} (h : a = b) : deepEqual a b = true := by
  rw [deepEqual, if_pos h]

theorem deepEqual_null_branch {a b : JSONValue} (h1 : a ≠ b)
    (h2 : (isNullJ a || isNullJ b) = true) : deepEqual a b = false := by
  rw [deepEqual, if_neg h1, if_pos h2]

theorem deepEqual_typeof_branch {a b : JSONValue} (h1 : a ≠ b)
    (h2 : (isNullJ a || isNullJ b) = false) (h3 : jsTypeof a ≠ jsTypeof b) :
    deepEqual a b = false := by
  rw [deepEqual, if_neg h1, if_neg (by simp [h2]), if_pos h3]

theorem deepEqual_arr_branch {a b : JSONValue} (h1 : a ≠ b)
    (h2 : (isNullJ a || isNullJ b) = false) (h3 : ¬jsTypeof a ≠ jsTypeof b)
    (h4 : (isArr a && isArr b) = true) :
    deepEqual a b = ((itemsOf a).length == (itemsOf b).length &&
      ((itemsOf a).zip (itemsOf b)).attach.all fun p => deepEqual p.1.1 p.1.2) := by
  rw [deepEqual, if_neg h1, if_neg (by simp [h2]), if_neg h3, dif_pos h4]

theorem deepEqual_obj_branch {a b : JSONValue} (h1 : a ≠ b)
    (h2 : (isNullJ a || isNullJ b) = false) (h3 : ¬jsTypeof a ≠ jsTypeof b)
    (h4 : (isArr a && isArr b) = false) (h5 : jsTypeof a = "object") :
    deepEqual a b = ((keys a).length == (keys b).length &&
      (entriesOf a).attach.all fun e =>
        (keys b).contains e.1.1 && deepEqual (jsGet a e.1.1) (jsGet b e.1.1)) := by
  rw [deepEqual, if_neg h1, if_neg (by simp [h2]), if_neg h3,
    dif_neg (by simp [h4]), dif_pos h5]

theorem deepEqual_prim_branch {a b : JSONValue} (h1 : a ≠ b)
    (h2 : (isNullJ a || isNullJ b) = false) (h3 : ¬jsTypeof a ≠ jsTypeof b)
    (h4 : (isArr a && isArr b) = false) (h5 : ¬jsTypeof a = "object") :
    deepEqual a b = false := by
  rw [deepEqual, if_neg h1, if_neg (by simp [h2]), if_neg h3,
    dif_neg (by simp [h4]), dif_neg h5]

/-- `deepEqual` computes exactly the finite-map equality `mapEq` on
well-formed values.  This is the key semantic characterisation: `mapEq` is
an equivalence relation, so `deepEqual` is reflexive, symmetric and
transitive on well-formed values. -/
theorem deepEqual_iff_mapEq {a b : JSONValue} (ha : wf a = true)
    (hb : wf b = true) : deepEqual a b = true ↔ mapEq a b := by
  have H : ∀ n (a b : JSONValue), sizeOf a + sizeOf b ≤ n → wf a = true →
      wf b = true → (deepEqual a b = true ↔ mapEq a b) := by
    intro n
    induction n using Nat.strong_induction_on with
    | _ n ih =>
      intro a b hn hwa hwb
      by_cases heq : a = b
      · subst heq
        exact iff_of_true (deepEqual_of_eq rfl) (mapEq_refl a)
      by_cases hnull : (isNullJ a || isNullJ b) = true
      · rw [deepEqual_null_branch heq hnull]
        have hnc : ¬(isCont a = true ∧ isCont b = true) := by
          intro hc
          rcases Bool.or_eq_true_iff.mp hnull with h | h
          · rw [(isCont_iff.mp hc.1).1] at h; exact Bool.false_ne_true h
          · rw [(isCont_iff.mp hc.2).1] at h; exact Bool.false_ne_true h
        rw [mapEq_of_not_cont hnc]
        simp [heq]
      have hnull' : (isNullJ a || isNullJ b) = false := by
        revert hnull; cases (isNullJ a || isNullJ b) <;> simp
      by_cases htyp : jsTypeof a ≠ jsTypeof b
      · rw [deepEqual_typeof_branch heq hnull' htyp]
        have hnc : ¬(isCont a = true ∧ isCont b = true) := fun hc =>
          htyp (((isCont_iff.mp hc.1).2).trans ((isCont_iff.mp hc.2).2).symm)
        rw [mapEq_of_not_cont hnc]
        simp [heq]
      have htyp' : jsTypeof a = jsTypeof b := not_not.mp htyp
      have hna : isNullJ a = false := by
        revert hnull'; cases (isNullJ a) <;> simp
      have hnb : isNullJ b = false := by
        revert hnull'; cases (isNullJ b) <;> simp
      by_cases harr : (isArr a && isArr b) = true
      · obtain ⟨hia, hib⟩ := Bool.and_eq_true_iff.mp harr
        obtain ⟨xs, rfl⟩ := isArr_exists hia
        obtain ⟨ys, rfl⟩ := isArr_exists hib
        rw [deepEqual_arr_branch heq hnull' htyp harr,
          attach_all_zip _ deepEqual, Bool.and_eq_true, beq_iff_eq,
          all_zip_iff deepEqual,
          mapEq_cont ⟨by simp [isCont], by simp [isCont]⟩]
        simp only [itemsOf]
        have hsize : ∀ (i : Nat) (h1 : i < xs.length) (h2 : i < ys.length),
            sizeOf (xs.get ⟨i, h1⟩) + sizeOf (ys.get ⟨i, h2⟩) <
              sizeOf (JSONValue.arr xs) + sizeOf (JSONValue.arr ys) := by
          intro i h1 h2
          have := sizeOf_mem_items (List.get_mem xs i h1)
          have := sizeOf_mem_items (List.get_mem ys i h2)
          omega
        have hwfx : ∀ (i : Nat) (h1 : i < xs.length), wf (xs.get ⟨i, h1⟩) = true :=
          fun i h1 => wf_arr_iff.mp hwa _ (List.get_mem xs i h1)
        have hwfy : ∀ (i : Nat) (h2 : i < ys.length), wf (ys.get ⟨i, h2⟩) = true :=
          fun i h2 => wf_arr_iff.mp hwb _ (List.get_mem ys i h2)
        constructor
        · rintro ⟨hlen, hvals⟩
          rw [keys_arr, keys_arr, hlen]
          refine ⟨List.Perm.refl _, fun k hk => ?_⟩
          simp only [List.mem_map, List.mem_range] at hk
          obtain ⟨i, hi, rfl⟩ := hk
          have hixs : i < xs.length := hlen ▸ hi
          rw [jsGet_arr xs i hixs, jsGet_arr ys i hi]
          exact (ih _ (by have := hsize i hixs hi; omega) _ _ le_rfl
            (hwfx i hixs) (hwfy i hi)).mp (hvals i hixs hi)
        · rintro ⟨hperm, hvals⟩
          have hlen : xs.length = ys.length := by
            have := hperm.length_eq
            simpa [keys_arr] using this
          refine ⟨hlen, fun i h1 h2 => ?_⟩
          have hk : natKey i ∈ keys (JSONValue.arr xs) := by
            rw [keys_arr]
            exact List.mem_map_of_mem natKey (List.mem_range.mpr h1)
          have hv := hvals _ hk
          rw [jsGet_arr xs i h1, jsGet_arr ys i h2] at hv
          exact (ih _ (by have := hsize i h1 h2; omega) _ _ le_rfl
            (hwfx i h1) (hwfy i h2)).mpr hv
      have harr' : (isArr a && isArr b) = false := by
        revert harr; cases (isArr a && isArr b) <;> simp
      by_cases hobj : jsTypeof a = "object"
      · have hconta : isCont a = true := isCont_iff.mpr ⟨hna, hobj⟩
        have hcontb : isCont b = true := isCont_iff.mpr ⟨hnb, htyp' ▸ hobj⟩
        rw [deepEqual_obj_branch heq hnull' htyp harr' hobj,
          attach_all_entries _
            (fun k => (keys b).contains k && deepEqual (jsGet a k) (jsGet b k)),
          Bool.and_eq_true, beq_iff_eq, List.all_eq_true,
          mapEq_cont ⟨hconta, hcontb⟩]
        have hsizeA : ∀ k ∈ keys a, sizeOf (jsGet a k) < sizeOf a :=
          fun k hk => sizeOf_jsGet (hasKey_of_mem_keys hk)
        have hsizeB : ∀ k ∈ keys b, sizeOf (jsGet b k) < sizeOf b :=
          fun k hk => sizeOf_jsGet (hasKey_of_mem_keys hk)
        constructor
        · rintro ⟨hlen, hall⟩
          have hsub : keys a ⊆ keys b := by
            intro k hk
            have h2 := hall _ (mem_entriesOf_jsGet hk)
            exact List.elem_iff.mp (Bool.and_eq_true_iff.mp h2).1
          have hperm : (keys a).Perm (keys b) :=
            ((nodup_keys_of_wf hwa).subperm hsub).perm_of_length_le
              (le_of_eq hlen.symm)
          refine ⟨hperm, fun k hk => ?_⟩
          have h2 := hall _ (mem_entriesOf_jsGet hk)
          obtain ⟨hcont, hde⟩ := Bool.and_eq_true_iff.mp h2
          have hkb : k ∈ keys b := List.elem_iff.mp hcont
          exact (ih _ (by have := hsizeA k hk; have := hsizeB k hkb; omega)
            _ _ le_rfl (wf_jsGet hwa (hasKey_of_mem_keys hk))
            (wf_jsGet hwb (hasKey_of_mem_keys hkb))).mp hde
        · rintro ⟨hperm, hvals⟩
          refine ⟨hperm.length_eq, fun e he => ?_⟩
          have hk : e.1 ∈ keys a := List.mem_map_of_mem Prod.fst he
          have hkb : e.1 ∈ keys b := hperm.mem_iff.mp hk
          rw [Bool.and_eq_true]
          refine ⟨List.elem_iff.mpr hkb, ?_⟩
          exact (ih _ (by have := hsizeA _ hk; have := hsizeB _ hkb; omega)
            _ _ le_rfl (wf_jsGet hwa (hasKey_of_mem_keys hk))
            (wf_jsGet hwb (hasKey_of_mem_keys hkb))).mpr (hvals _ hk)
      · rw [deepEqual_prim_branch heq hnull' htyp harr' hobj]
        have hnc : ¬(isCont a = true ∧ isCont b = true) := fun hc =>
          hobj (isCont_iff.mp hc.1).2
        rw [mapEq_of_not_cont hnc]
        simp [heq]
  exact H _ a b le_rfl ha hb

theorem deepEqual_refl (a : JSONValue) : deepEqual a a = true :=
  deepEqual_of_eq rfl

theorem deepEqual_symm {a b : JSONValue} (ha : wf a = true) (hb : wf b = true) :
    deepEqual a b = deepEqual b a := by
  rw [Bool.eq_iff_iff, deepEqual_iff_mapEq ha hb, deepEqual_iff_mapEq hb ha]
  exact ⟨mapEq_symm, mapEq_symm⟩

theorem deepEqual_trans {a b c : JSONValue} (ha : wf a = true)
    (hb : wf b = true) (hc : wf c = true) (h1 : deepEqual a b = true)
    (h2 : deepEqual b c = true) : deepEqual a c = true := by
  rw [deepEqual_iff_mapEq ha hc]
  exact mapEq_trans ((deepEqual_iff_mapEq ha hb).mp h1)
    ((deepEqual_iff_mapEq hb hc).mp h2)

end JSONValue

/-! ## The diff engine (`DiffManager` in `src/js/ui/diff.js`) -/

open JSONValue

/-- `path || 'root'` used when emitting records at the document root. -/
def pathOrRoot (p : String) : String := if p = "" then "root" else p

/-- `path ? `${path}.${key}` : key` (the empty string is falsy in JS). -/
def keyPath (path k : String) : String := if path = "" then k else path ++ "." ++ k

/-- `path ? `${path}[${i}]` : `[${i}]``. -/
def indexPath (path : String) (i : Nat) : String :=
  if path = "" then "[" ++ natKey i ++ "]" else path ++ "[" ++ natKey i ++ "]"

/-- An `added`/`removed` record.  Object records carry no `arrayIndex`
(`none`); array records carry `some index`. -/
structure ValRec where
  path : String
  value : JSONValue
  type : String
  arrayIndex : Option Nat
deriving DecidableEq

/-- A `modified` record. -/
structure ModRec where
  path : String
  leftValue : JSONValue
  rightValue : JSONValue
  type : String
deriving DecidableEq

/-- An `unchanged` record. -/
structure URec where
  path : String
  value : JSONValue
deriving DecidableEq

/-- The `changes` object threaded through the diff. -/
structure Changes where
  added : List ValRec
  removed : List ValRec
  modified : List ModRec
  unchanged : List URec
deriving DecidableEq

def emptyChanges : Changes := ⟨[], [], [], []⟩

/-- The per-item state of `diffArrays`: `{ item, index, used: false }`. -/
structure TaggedItem where
  item : JSONValue
  index : Nat
  used : Bool
deriving DecidableEq

/-- `left.map((item, index) => ({ item, index, used: false }))`. -/
def tagItems (l : List JSONValue) : List TaggedItem :=
  l.enum.map fun p => ⟨p.2, p.1, false⟩

/-- The inner loop of pass 1 of `diffArrays`: scan the (tagged) right items in
order, skip used ones, and mark the first unused item deep-equal to `v` as
used; `none` when no unused match exists. -/
def markFirstMatch (v : JSONValue) : List TaggedItem → Option (List TaggedItem)
  | [] => none
  | t :: ts =>
    if t.used then (markFirstMatch v ts).map (t :: ·)
    else if deepEqual v t.item then some ({ t with used := true } :: ts)
    else (markFirstMatch v ts).map (t :: ·)

/-- Pass 1 of `diffArrays` (diff.js 531–551): for each left item in order,
pair it with the first unused deep-equal right item, recording an Unchanged
record at the left index.  Returns the (still-ordered) unmatched left items,
the right items with their final `used` flags, and the extended changes. -/
def pass1 (path : String) : List TaggedItem → List TaggedItem → Changes →
    (List TaggedItem × List TaggedItem × Changes)
  | [], rights, c => ([], rights, c)
  | l :: ls, rights, c =>
    match markFirstMatch l.item rights with
    | some rights' =>
      let c' := { c with
        unchanged := c.unchanged ++ [⟨indexPath path l.index, l.item⟩] }
      let r := pass1 path ls rights' c'
      (r.1, r.2.1, r.2.2)
    | none =>
      let r := pass1 path ls rights c
      (l :: r.1, r.2.1, r.2.2)

/-- `DiffManager.diffArrays` (diff.js 522–580): content-based array diff.
Pass 2 appends a Removed record for each unmatched left item (in index
order) and pass 3 an Added record for each unused right item. -/
def diffArrays (left right : List JSONValue) (path : String)
    (changes : Changes) : Changes :=
  if left.length = 0 ∧ right.length = 0 then changes
  else
    let r := pass1 path (tagItems left) (tagItems right) changes
    let c2 := { r.2.2 with removed := r.2.2.removed ++ (r.1.map fun (t : TaggedItem) =>
      (⟨indexPath path t.index, t.item, "array_item_removed", some t.index⟩ : ValRec)) }
    { c2 with added := c2.added ++
      ((r.2.1.filter fun (t : TaggedItem) => !t.used).map fun (t : TaggedItem) =>
        (⟨indexPath path t.index, t.item, "array_item_added", some t.index⟩ : ValRec)) }

/-- Insertion-ordered deduplication, as `new Set([...xs])` iterates. -/
def dedupFirstAux (seen : List String) : List String → List String
  | [] => []
  | k :: ks =>
    if k ∈ seen then dedupFirstAux seen ks
    else k :: dedupFirstAux (k :: seen) ks

/-- `new Set([...leftKeys, ...rightKeys])` in iteration order. -/
def jsSetUnion (l : List String) : List String := dedupFirstAux [] l

mutual

/-- `DiffManager.deepDiff` (diff.js 441–482).  Note that the first branch
tests JS `typeof`, under which `null`, arrays and objects are all
`'object'`; an array/object pair therefore reaches `diffObjects`, which
compares the array through its index keys. -/
def deepDiff (left right : JSONValue) (path : String) : Changes :=
  if jsTypeof left ≠ jsTypeof right then
    { emptyChanges with modified := [⟨pathOrRoot path, left, right, "type_change"⟩] }
  else if isArr left && isArr right then
    diffArrays (itemsOf left) (itemsOf right) path emptyChanges
  else if jsTypeof left = "object" ∧ left ≠ .null ∧ right ≠ .null then
    diffObjects left right path emptyChanges
  else if left ≠ right then
    { emptyChanges with modified := [⟨pathOrRoot path, left, right, "value_change"⟩] }
  else
    { emptyChanges with unchanged := [⟨pathOrRoot path, left⟩] }
termination_by (sizeOf left + sizeOf right, 2, 0)
decreasing_by
  apply Prod.Lex.right
  apply Prod.Lex.left
  omega

/-- `DiffManager.diffObjects` (diff.js 487–517). -/
def diffObjects (left right : JSONValue) (path : String) (changes : Changes) :
    Changes :=
  diffKeys (jsSetUnion (keys left ++ keys right)) left right path changes
termination_by (sizeOf left + sizeOf right, 1, 0)
decreasing_by
  apply Prod.Lex.right
  apply Prod.Lex.left
  omega

/-- The `for (const key of allKeys)` loop of `diffObjects`: key only in right
→ Added, key only in left → Removed, key in both → recurse and merge. -/
def diffKeys : List String → JSONValue → JSONValue → String → Changes → Changes
  | [], _, _, _, c => c
  | k :: ks, left, right, path, c =>
    let currentPath := keyPath path k
    if h1 : hasKey left k = true then
      if h2 : hasKey right k = true then
        let sub := deepDiff (jsGet left k) (jsGet right k) currentPath
        diffKeys ks left right path
          ⟨c.added ++ sub.added, c.removed ++ sub.removed,
           c.modified ++ sub.modified, c.unchanged ++ sub.unchanged⟩
      else
        diffKeys ks left right path
          { c with removed :=
              c.removed ++ [⟨currentPath, jsGet left k, "property_removed", none⟩] }
    else
      diffKeys ks left right path
        { c with added :=
            c.added ++ [⟨currentPath, jsGet right k, "property_added", none⟩] }
termination_by ks left right path changes => (sizeOf left + sizeOf right, 0, ks.length)
decreasing_by
  · apply Prod.Lex.left
    have := sizeOf_jsGet h1
    have := sizeOf_jsGet h2
    omega
  · apply Prod.Lex.right
    apply Prod.Lex.right
    simp_arith
  · apply Prod.Lex.right
    apply Prod.Lex.right
    simp_arith
  · apply Prod.Lex.right
    apply Prod.Lex.right
    simp_arith

end

/-- The top-level comparison `performDiff` performs on the two parsed
documents: `deepDiff(leftObj, rightObj, '')` (diff.js 427–436). -/
def diffValues (left right : JSONValue) : Changes := deepDiff left right ""

/-! Branch equations of `deepDiff`. -/

theorem deepDiff_typeof_branch {l r : JSONValue} (p : String)
    (h : jsTypeof l ≠ jsTypeof r) :
    deepDiff l r p = ⟨[], [], [⟨pathOrRoot p, l, r, "type_change"⟩], []⟩ := by
  rw [deepDiff, if_pos h]
  rfl

theorem deepDiff_arr_branch {l r : JSONValue} (p : String)
    (h1 : ¬jsTypeof l ≠ jsTypeof r) (h2 : (isArr l && isArr r) = true) :
    deepDiff l r p = diffArrays (itemsOf l) (itemsOf r) p emptyChanges := by
  rw [deepDiff, if_neg h1, if_pos h2]

theorem deepDiff_obj_branch {l r : JSONValue} (p : String)
    (h1 : ¬jsTypeof l ≠ jsTypeof r) (h2 : (isArr l && isArr r) = false)
    (h3 : jsTypeof l = "object" ∧ l ≠ .null ∧ r ≠ .null) :
    deepDiff l r p = diffObjects l r p emptyChanges := by
  rw [deepDiff, if_neg h1, if_neg (by simp [h2]), if_pos h3]

theorem deepDiff_modified_branch {l r : JSONValue} (p : String)
    (h1 : ¬jsTypeof l ≠ jsTypeof r) (h2 : (isArr l && isArr r) = false)
    (h3 : ¬(jsTypeof l = "object" ∧ l ≠ .null ∧ r ≠ .null)) (h4 : l ≠ r) :
    deepDiff l r p = ⟨[], [], [⟨pathOrRoot p, l, r, "value_change"⟩], []⟩ := by
  rw [deepDiff, if_neg h1, if_neg (by simp [h2]), if_neg h3, if_pos h4]
  rfl

theorem deepDiff_unchanged_branch {l r : JSONValue} (p : String)
    (h1 : ¬jsTypeof l ≠ jsTypeof r) (h2 : (isArr l && isArr r) = false)
    (h3 : ¬(jsTypeof l = "object" ∧ l ≠ .null ∧ r ≠ .null)) (h4 : ¬l ≠ r) :
    deepDiff l r p = ⟨[], [], [], [⟨pathOrRoot p, l⟩]⟩ := by
  rw [deepDiff, if_neg h1, if_neg (by simp [h2]), if_neg h3, if_neg h4]
  rfl

/-! ### Claim C2 -/

/-- Claim C2, counterexample: the claim asserts that an array/object pair at
the top level yields exactly one Modified record at the root and no descent.
In fact `typeof [] === typeof {} === 'object'`, so `deepDiff` never takes its
type-mismatch branch for that pair; `diff([], {})` descends into object
comparison over the (empty) key sets and produces no record at all — in
particular not one Modified record at the root. -/
theorem diff_array_vs_object_no_modified :
    diffValues (JSONValue.arr []) (JSONValue.obj []) = emptyChanges := by
  simp [diffValues, deepDiff, jsTypeof, isArr, diffObjects, diffKeys, keys,
    entriesOf, jsSetUnion, dedupFirstAux, emptyChanges]

/-- Claim C2, amended: whenever the JS `typeof` of the two top-level values
differs (with `null`, arrays and objects all reporting `'object'`),
`deepDiff` emits exactly one Modified record (`type_change`) at the root
path and performs no descent; an array/object pair has equal `typeof` and is
instead compared by `diffObjects` over the array's index keys. -/
theorem deepDiff_typeof_mismatch_single_modified :
    (∀ (l r : JSONValue) (p : String), jsTypeof l ≠ jsTypeof r →
      deepDiff l r p = ⟨[], [], [⟨pathOrRoot p, l, r, "type_change"⟩], []⟩) ∧
    (∀ (xs : List JSONValue) (fs : List (String × JSONValue)) (p : String),
      deepDiff (JSONValue.arr xs) (JSONValue.obj fs) p =
        diffObjects (JSONValue.arr xs) (JSONValue.obj fs) p emptyChanges) := by
  constructor
  · intro l r p h
    exact deepDiff_typeof_branch p h
  · intro xs fs p
    exact deepDiff_obj_branch p (by simp [jsTypeof]) (by simp [isArr])
      ⟨by simp [jsTypeof], by simp, by simp⟩

/-- Witness for the amended claim C2 at a concrete type-mismatched pair. -/
theorem deepDiff_typeof_mismatch_single_modified_witness :
    deepDiff (JSONValue.num 1) (JSONValue.str "a") "" =
      ⟨[], [], [⟨pathOrRoot "", JSONValue.num 1, JSONValue.str "a", "type_change"⟩], []⟩ :=
  deepDiff_typeof_mismatch_single_modified.1 (JSONValue.num 1) (JSONValue.str "a") ""
    (by decide)

/-! ### Pass-1 matching machinery

Counting characterisation of `markFirstMatch` and `pass1`, from which the
content-based matching properties of `diffArrays` follow. -/

/-- Count of unused right items deep-equal (from the left) to `v` — exactly
the items `markFirstMatch v` may pair. -/
def matchable (v : JSONValue) (rs : List TaggedItem) : Nat :=
  rs.countP fun t => !t.used && deepEqual v t.item

theorem markFirstMatch_none_iff {v : JSONValue} {rs : List TaggedItem} :
    markFirstMatch v rs = none ↔
      ∀ t ∈ rs, t.used = true ∨ deepEqual v t.item = false := by
  induction rs with
  | nil => simp [markFirstMatch]
  | cons t ts ih =>
    rw [markFirstMatch]
    by_cases hu : t.used
    · simp [hu, ih, Option.map_eq_none']
    · by_cases hd : deepEqual v t.item
      · simp [hu, hd]
      · simp [hu, hd, ih, Option.map_eq_none']

theorem markFirstMatch_none_matchable {v : JSONValue} {rs : List TaggedItem}
    (h : markFirstMatch v rs = none) : matchable v rs = 0 := by
  rw [matchable, List.countP_eq_zero]
  intro t ht
  rcases markFirstMatch_none_iff.mp h t ht with h1 | h1 <;> simp [h1]

/-- Structure of a successful `markFirstMatch`: exactly one unused matching
item — the first — has its flag flipped; everything else is untouched. -/
theorem markFirstMatch_some_decomp {v : JSONValue} {rs rs' : List TaggedItem}
    (h : markFirstMatch v rs = some rs') :
    ∃ pre t post, rs = pre ++ t :: post ∧
      rs' = pre ++ { t with used := true } :: post ∧
      t.used = false ∧ deepEqual v t.item = true ∧
      (∀ t' ∈ pre, t'.used = true ∨ deepEqual v t'.item = false) := by
  induction rs generalizing rs' with
  | nil => simp [markFirstMatch] at h
  | cons t ts ih =>
    rw [markFirstMatch] at h
    by_cases hu : t.used = true
    · rw [if_pos hu, Option.map_eq_some'] at h
      obtain ⟨ts', hts', rfl⟩ := h
      obtain ⟨pre, u, post, h1, h2, h3, h4, h5⟩ := ih hts'
      refine ⟨t :: pre, u, post, by simp [h1], by simp [h2], h3, h4, ?_⟩
      intro t' ht'
      rcases List.mem_cons.mp ht' with rfl | ht'
      · exact Or.inl hu
      · exact h5 t' ht'
    · rw [if_neg hu] at h
      by_cases hd : deepEqual v t.item = true
      · rw [if_pos hd, Option.some_inj] at h
        refine ⟨[], t, ts, by simp, ?_, Bool.eq_false_iff.mpr hu, hd, by simp⟩
        rw [← h]
        simp
      · rw [if_neg hd, Option.map_eq_some'] at h
        obtain ⟨ts', hts', rfl⟩ := h
        obtain ⟨pre, u, post, h1, h2, h3, h4, h5⟩ := ih hts'
        refine ⟨t :: pre, u, post, by simp [h1], by simp [h2], h3, h4, ?_⟩
        intro t' ht'
        rcases List.mem_cons.mp ht' with rfl | ht'
        · exact Or.inr (Bool.eq_false_iff.mpr hd)
        · exact h5 t' ht'

theorem pass1_fields (path : String) : ∀ (ls rs : List TaggedItem) (c : Changes),
    (pass1 path ls rs c).2.2.added = c.added ∧
    (pass1 path ls rs c).2.2.removed = c.removed ∧
    (pass1 path ls rs c).2.2.modified = c.modified := by
  intro ls
  induction ls with
  | nil => intro rs c; simp [pass1]
  | cons l ls ih =>
    intro rs c
    cases hm : markFirstMatch l.item rs with
    | some rights' =>
      simp only [pass1, hm]
      exact ih rights' _
    | none =>
      simp only [pass1, hm]
      exact ih rs c

/-- The count bookkeeping of one successful match: the flipped item's class
loses one matchable member, every other class is untouched. -/
theorem matchable_flip (pre post : List TaggedItem) (t : TaggedItem)
    (hu : t.used = false) (v : JSONValue) :
    matchable v (pre ++ t :: post) =
      matchable v (pre ++ { t with used := true } :: post) +
        (if deepEqual v t.item = true then 1 else 0) := by
  simp only [matchable, List.countP_append, List.countP_cons, hu]
  by_cases hd : deepEqual v t.item = true <;> simp [hd] <;> omega

theorem unusedCount_flip (pre post : List TaggedItem) (t : TaggedItem)
    (hu : t.used = false) :
    ((pre ++ t :: post).countP fun t => !t.used) =
      ((pre ++ { t with used := true } :: post).countP fun t => !t.used) + 1 := by
  simp only [List.countP_append, List.countP_cons, hu]
  simp
  omega

/-- Pass 1 matches every left item when, class by class (up to `deepEqual`),
the left items are no more numerous than the unused right items: no left
item is left unmatched, one Unchanged record per left item is appended in
order, and exactly `ls.length` right items get consumed. -/
theorem pass1_total (path : String) : ∀ (ls rs : List TaggedItem) (c : Changes),
    (∀ t ∈ ls, wf t.item = true) → (∀ t ∈ rs, wf t.item = true) →
    (∀ v, wf v = true → (ls.countP fun t => deepEqual v t.item) ≤ matchable v rs) →
    (pass1 path ls rs c).1 = [] ∧
    (pass1 path ls rs c).2.2 = ⟨c.added, c.removed, c.modified,
      c.unchanged ++ ls.map (fun t => ⟨indexPath path t.index, t.item⟩)⟩ ∧
    ((pass1 path ls rs c).2.1.countP fun t => !t.used) =
      (rs.countP fun t => !t.used) - ls.length := by
  intro ls
  induction ls with
  | nil =>
    intro rs c hwl hwr hle
    refine ⟨rfl, ?_, by simp [pass1]⟩
    show c = _
    cases c
    simp [pass1]
  | cons l ls ih =>
    intro rs c hwl hwr hle
    have hwll : wf l.item = true := hwl l (by simp)
    have hpos : 1 ≤ (l :: ls).countP fun t => deepEqual l.item t.item := by
      rw [List.countP_cons]
      simp [deepEqual_refl]
    cases hm : markFirstMatch l.item rs with
    | none =>
      exfalso
      have h0 := markFirstMatch_none_matchable hm
      have := hle l.item hwll
      omega
    | some rights' =>
      obtain ⟨pre, t, post, hrs, hrs', hu, hd, hskip⟩ :=
        markFirstMatch_some_decomp hm
      have htmem : t ∈ rs := by rw [hrs]; simp
      have hwt : wf t.item = true := hwr t htmem
      -- class transport: membership of the flipped item in a class is the
      -- same as membership of `l.item` in that class
      have hclass : ∀ v, wf v = true →
          deepEqual v t.item = deepEqual v l.item := by
        intro v hv
        rw [Bool.eq_iff_iff]
        constructor
        · intro h
          exact deepEqual_trans hv hwt hwll h
            (by rw [← deepEqual_symm hwll hwt]; exact hd)
        · intro h
          exact deepEqual_trans hv hwll hwt h hd
      have hwr' : ∀ u ∈ rights', wf u.item = true := by
        intro u hu'
        rw [hrs'] at hu'
        rcases List.mem_append.mp hu' with h | h
        · exact hwr u (by rw [hrs]; exact List.mem_append.mpr (Or.inl h))
        · rcases List.mem_cons.mp h with rfl | h
          · exact hwt
          · exact hwr u (by rw [hrs]; simp [h])
      have hle' : ∀ v, wf v = true →
          (ls.countP fun u => deepEqual v u.item) ≤ matchable v rights' := by
        intro v hv
        have hmain := hle v hv
        rw [List.countP_cons] at hmain
        have hflip := matchable_flip pre post t hu v
        rw [← hrs, ← hrs', hclass v hv] at hflip
        by_cases hvd : deepEqual v l.item = true
        · rw [if_pos hvd] at hflip
          rw [if_pos (show (fun u => deepEqual v u.item) l = true from hvd)] at hmain
          omega
        · rw [if_neg hvd] at hflip
          rw [if_neg (show ¬(fun u => deepEqual v u.item) l = true from hvd)] at hmain
          omega
      obtain ⟨ih1, ih2, ih3⟩ := ih rights'
        { c with unchanged := c.unchanged ++ [⟨indexPath path l.index, l.item⟩] }
        (fun u hmem => hwl u (by simp [hmem])) hwr' hle'
      have hcount : (rights'.countP fun u => !u.used) =
          (rs.countP fun u => !u.used) - 1 := by
        have := unusedCount_flip pre post t hu
        rw [← hrs, ← hrs'] at this
        omega
      have hge : 1 ≤ rs.countP fun u => !u.used := by
        have := unusedCount_flip pre post t hu
        rw [← hrs, ← hrs'] at this
        omega
      refine ⟨?_, ?_, ?_⟩
      · simp only [pass1, hm]
        exact ih1
      · simp only [pass1, hm]
        rw [ih2]
        simp
      · simp only [pass1, hm, ih3, hcount, List.length_cons]
        omega

theorem countP_enumFrom {α : Type _} (p : α → Bool) :
    ∀ (s : Nat) (l : List α), ((l.enumFrom s).countP fun q => p q.2) = l.countP p := by
  intro s l
  induction l generalizing s with
  | nil => simp
  | cons x xs ih => simp [List.enumFrom, List.countP_cons, ih]

theorem tagItems_countP (v : JSONValue) (L : List JSONValue) :
    ((tagItems L).countP fun t => deepEqual v t.item) =
      L.countP fun w => deepEqual v w := by
  rw [tagItems, List.countP_map]
  exact countP_enumFrom _ 0 L

theorem tagItems_matchable (v : JSONValue) (R : List JSONValue) :
    matchable v (tagItems R) = R.countP fun w => deepEqual v w := by
  rw [matchable, tagItems, List.countP_map]
  have : ((fun t : TaggedItem => !t.used && deepEqual v t.item) ∘
      fun p : Nat × JSONValue => TaggedItem.mk p.2 p.1 false) =
      fun q : Nat × JSONValue => deepEqual v q.2 := by
    funext q
    simp
  rw [this]
  exact countP_enumFrom _ 0 R

theorem tagItems_unused (R : List JSONValue) :
    ((tagItems R).countP fun t => !t.used) = R.length := by
  rw [tagItems, List.countP_map]
  have : ((fun t : TaggedItem => !t.used) ∘
      fun p : Nat × JSONValue => TaggedItem.mk p.2 p.1 false) =
      fun _ : Nat × JSONValue => true := by
    funext q
    simp
  rw [this]
  simp [List.countP_true]

theorem tagItems_wf {L : List JSONValue} (hwf : ∀ v ∈ L, wf v = true) :
    ∀ t ∈ tagItems L, wf t.item = true := by
  intro t ht
  simp only [tagItems, List.mem_map] at ht
  obtain ⟨⟨i, w⟩, hmem, rfl⟩ := ht
  exact hwf w (mem_of_mem_enum hmem)

/-- `diffArrays` on a permutation pair: every element pairs up, so nothing is
added or removed (or modified), and one Unchanged record per left element is
appended, in left index order, holding the whole element. -/
theorem diffArrays_perm {L R : List JSONValue} (hperm : L.Perm R)
    (hwf : ∀ v ∈ L, wf v = true) (path : String) (c : Changes) :
    diffArrays L R path c = ⟨c.added, c.removed, c.modified,
      c.unchanged ++ L.enum.map fun q => ⟨indexPath path q.1, q.2⟩⟩ := by
  by_cases hemp : L.length = 0 ∧ R.length = 0
  · rw [diffArrays, if_pos hemp]
    have hL : L = [] := List.length_eq_zero.mp hemp.1
    subst hL
    cases c
    simp
  · have hle : ∀ v, wf v = true →
        ((tagItems L).countP fun t => deepEqual v t.item) ≤
          matchable v (tagItems R) := by
      intro v hv
      rw [tagItems_countP, tagItems_matchable, hperm.countP_eq]
    obtain ⟨p1, p2, p3⟩ := pass1_total path (tagItems L) (tagItems R) c
      (tagItems_wf hwf) (tagItems_wf (fun v hv => hwf v (hperm.mem_iff.mpr hv)))
      hle
    have hlen : (tagItems L).length = L.length := by simp [tagItems]
    have hzero : ((pass1 path (tagItems L) (tagItems R) c).2.1.countP
        fun t => !t.used) = 0 := by
      rw [p3, tagItems_unused, hlen, hperm.length_eq]
      omega
    have hfilter : ((pass1 path (tagItems L) (tagItems R) c).2.1.filter
        fun t => !t.used) = [] :=
      List.filter_eq_nil.mpr (List.countP_eq_zero.mp hzero)
    have hmap : ((tagItems L).map fun t =>
        (⟨indexPath path t.index, t.item⟩ : URec)) =
        L.enum.map fun q => ⟨indexPath path q.1, q.2⟩ := by
      rw [tagItems, List.map_map]
      rfl
    simp only [diffArrays, if_neg hemp, p1, p2, hfilter]
    simp [hmap]

theorem natKey_lt_ten {n : Nat} (h : n < 10) :
    natKey n = ⟨[Nat.digitChar n]⟩ := by
  rw [natKey, natKeyAux, if_pos h]

theorem diffArrays_modified_eq (L R : List JSONValue) (path : String)
    (c : Changes) : (diffArrays L R path c).modified = c.modified := by
  by_cases hemp : L.length = 0 ∧ R.length = 0
  · rw [diffArrays, if_pos hemp]
  · obtain ⟨-, -, hmod⟩ := pass1_fields path (tagItems L) (tagItems R) c
    simp only [diffArrays, if_neg hemp]
    exact hmod

/-! ### Claim C3 -/

/-- Claim C3: array matching is content-based.  (a) When the right array is a
permutation of the left one (e.g. `diff([1,2,3], [3,2,1])`), `diffArrays`
contributes zero Added, zero Removed and zero Modified records and exactly
one Unchanged record per element — at the element's left index path,
holding the whole element.  (b) The array-comparison passes never produce a
Modified record at all (so a changed element surfaces as one Removed plus
one Added from passes 2 and 3 instead of a paired modification). -/
theorem diffArrays_content_matching :
    (∀ (L R : List JSONValue) (path : String) (c : Changes),
      L.Perm R → (∀ v ∈ L, wf v = true) →
      (diffArrays L R path c).added = c.added ∧
      (diffArrays L R path c).removed = c.removed ∧
      (diffArrays L R path c).modified = c.modified ∧
      (diffArrays L R path c).unchanged =
        c.unchanged ++ L.enum.map (fun q => ⟨indexPath path q.1, q.2⟩)) ∧
    (∀ (L R : List JSONValue) (path : String) (c : Changes),
      (diffArrays L R path c).modified = c.modified) := by
  constructor
  · intro L R path c hperm hwf
    rw [diffArrays_perm hperm hwf path c]
    exact ⟨rfl, rfl, rfl, rfl⟩
  · exact diffArrays_modified_eq

/-- Witness: the spec's own example `diff([1,2,3], [3,2,1])` yields no
Added/Removed/Modified and three Unchanged records. -/
theorem diffArrays_content_matching_witness :
    diffValues (JSONValue.arr [.num 1, .num 2, .num 3])
        (JSONValue.arr [.num 3, .num 2, .num 1]) =
      ⟨[], [], [], [⟨"[0]", .num 1⟩, ⟨"[1]", .num 2⟩, ⟨"[2]", .num 3⟩]⟩ := by
  have hperm : ([JSONValue.num 1, .num 2, .num 3]).Perm
      [JSONValue.num 3, .num 2, .num 1] :=
    (List.reverse_perm [JSONValue.num 1, .num 2, .num 3]).symm
  have hwf : ∀ v ∈ [JSONValue.num 1, .num 2, .num 3], wf v = true := by
    intro v hv
    fin_cases hv <;> simp [wf]
  obtain ⟨h1, h2, h3, h4⟩ := diffArrays_content_matching.1
    [JSONValue.num 1, .num 2, .num 3] [JSONValue.num 3, .num 2, .num 1]
    "" emptyChanges hperm hwf
  have hb : diffValues (JSONValue.arr [.num 1, .num 2, .num 3])
      (JSONValue.arr [.num 3, .num 2, .num 1]) =
      diffArrays [JSONValue.num 1, .num 2, .num 3]
        [JSONValue.num 3, .num 2, .num 1] "" emptyChanges := by
    rw [diffValues, deepDiff_arr_branch "" (by simp [jsTypeof]) (by simp [isArr])]
    rfl
  rw [hb]
  have hi0 : indexPath "" 0 = "[0]" := by
    rw [indexPath, if_pos rfl, natKey_lt_ten (by omega)]
    decide
  have hi1 : indexPath "" 1 = "[1]" := by
    rw [indexPath, if_pos rfl, natKey_lt_ten (by omega)]
    decide
  have hi2 : indexPath "" 2 = "[2]" := by
    rw [indexPath, if_pos rfl, natKey_lt_ten (by omega)]
    decide
  rcases hv : diffArrays [JSONValue.num 1, .num 2, .num 3]
      [JSONValue.num 3, .num 2, .num 1] "" emptyChanges with ⟨a, r, m, u⟩
  rw [hv] at h1 h2 h3 h4
  simp only at h1 h2 h3 h4
  subst h1 h2 h3
  rw [h4]
  simp only [emptyChanges, List.nil_append, List.enum, List.enumFrom, List.map,
    hi0, hi1, hi2]

/-! ### Claim C1 -/

/-- The Unchanged records `diff(X, X)` actually produces: one record per
primitive leaf reached through object recursion, and one record per array
element (recorded whole at its index path — the array pass never descends);
container paths themselves get no record. -/
def selfUnchanged (p : String) : JSONValue → List URec
  | .obj fs => fs.attach.flatMap fun e => selfUnchanged (keyPath p e.1.1) e.1.2
  | .arr l => l.enum.map fun q => ⟨indexPath p q.1, q.2⟩
  | x => [⟨pathOrRoot p, x⟩]
decreasing_by
  exact sizeOf_mem_fields (Prod.mk.eta (p := e.1) ▸ e.2)

theorem attach_flatMap {α β : Type _} (l : List α) (f : α → List β) :
    (l.attach.flatMap fun e => f e.1) = l.flatMap f := by
  conv_rhs => rw [← List.attach_map_subtype_val l]
  rw [List.flatMap_map]

theorem dedupFirstAux_all_seen {rest seen : List String}
    (h : ∀ k ∈ rest, k ∈ seen) : dedupFirstAux seen rest = [] := by
  induction rest with
  | nil => rfl
  | cons k ks ih =>
    rw [dedupFirstAux, if_pos (h k (by simp))]
    exact ih fun k' hk' => h k' (by simp [hk'])

theorem dedupFirstAux_fresh {ks rest seen : List String} (hnd : ks.Nodup)
    (hfresh : ∀ k ∈ ks, k ∉ seen) (hrest : ∀ k ∈ rest, k ∈ ks ∨ k ∈ seen) :
    dedupFirstAux seen (ks ++ rest) = ks := by
  induction ks generalizing seen with
  | nil =>
    simp only [List.nil_append]
    exact dedupFirstAux_all_seen fun k hk => (hrest k hk).resolve_left (by simp)
  | cons k ks ih =>
    rw [List.cons_append, dedupFirstAux, if_neg (hfresh k (by simp))]
    have hnd' := List.nodup_cons.mp hnd
    congr 1
    refine ih hnd'.2 ?_ ?_
    · intro k' hk'
      simp only [List.mem_cons]
      push_neg
      exact ⟨fun heq => hnd'.1 (heq ▸ hk'), hfresh k' (by simp [hk'])⟩
    · intro k' hk'
      rcases hrest k' (by simp [hk']) with h | h
      · rcases List.mem_cons.mp h with rfl | h
        · simp
        · simp [h]
      · simp [h]

theorem jsSetUnion_self {ks : List String} (hnd : ks.Nodup) :
    jsSetUnion (ks ++ ks) = ks := by
  rw [jsSetUnion]
  exact dedupFirstAux_fresh hnd (by simp) (fun k hk => Or.inl hk)

theorem lookup_eq_of_nodup {fs : List (String × JSONValue)}
    (hnd : (fs.map Prod.fst).Nodup) {k : String} {v : JSONValue}
    (h : (k, v) ∈ fs) : fs.lookup k = some v := by
  induction fs with
  | nil => simp at h
  | cons e fs ih =>
    obtain ⟨a, b⟩ := e
    rw [List.lookup]
    rcases List.mem_cons.mp h with heq | hmem
    · injection heq with h1 h2
      subst h1 h2
      simp
    · have hka : k ≠ a := by
        intro heq
        subst heq
        have hm : (k, v).1 ∈ fs.map Prod.fst := List.mem_map_of_mem Prod.fst hmem
        exact (List.nodup_cons.mp hnd).1 hm
      rw [beq_false_of_ne hka]
      exact ih (List.nodup_cons.mp hnd).2 hmem

theorem jsGet_obj_of_mem {fs : List (String × JSONValue)}
    (hnd : (fs.map Prod.fst).Nodup) {k : String} {v : JSONValue}
    (h : (k, v) ∈ fs) : jsGet (JSONValue.obj fs) k = v := by
  unfold jsGet
  rw [show entriesOf (JSONValue.obj fs) = fs from rfl, lookup_eq_of_nodup hnd h]
  rfl

theorem diffKeys_self {X : JSONValue} (p : String)
    (ih : ∀ (Y : JSONValue), sizeOf Y < sizeOf X → wf Y = true → ∀ p',
      deepDiff Y Y p' = ⟨[], [], [], selfUnchanged p' Y⟩)
    (hwf : wf X = true) :
    ∀ (ks : List String) (c : Changes), (∀ k ∈ ks, k ∈ keys X) →
      diffKeys ks X X p c = ⟨c.added, c.removed, c.modified,
        c.unchanged ++ ks.flatMap fun k => selfUnchanged (keyPath p k) (jsGet X k)⟩ := by
  intro ks
  induction ks with
  | nil =>
    intro c hsub
    rw [diffKeys]
    cases c
    simp
  | cons k ks ihk =>
    intro c hsub
    have hk : hasKey X k = true := hasKey_of_mem_keys (hsub k (by simp))
    rw [diffKeys, dif_pos hk, dif_pos hk,
      ih (jsGet X k) (sizeOf_jsGet hk) (wf_jsGet hwf hk) (keyPath p k),
      ihk _ (fun k' hk' => hsub k' (by simp [hk']))]
    simp

/-- `diff(X, X)` on a well-formed value: Added, Removed and Modified are
empty and Unchanged is exactly `selfUnchanged`. -/
theorem deepDiff_self (X : JSONValue) (hwf : wf X = true) (p : String) :
    deepDiff X X p = ⟨[], [], [], selfUnchanged p X⟩ := by
  have H : ∀ n (X : JSONValue), sizeOf X ≤ n → wf X = true → ∀ p,
      deepDiff X X p = ⟨[], [], [], selfUnchanged p X⟩ := by
    intro n
    induction n using Nat.strong_induction_on with
    | _ n ihn =>
      intro X hn hwf p
      have ih : ∀ (Y : JSONValue), sizeOf Y < sizeOf X → wf Y = true → ∀ p',
          deepDiff Y Y p' = ⟨[], [], [], selfUnchanged p' Y⟩ :=
        fun Y hY hwY => ihn (sizeOf Y) (by omega) Y le_rfl hwY
      cases X with
      | null =>
        rw [deepDiff_unchanged_branch p (by simp) (by simp [isArr])
          (by simp) (by simp)]
        simp [selfUnchanged]
      | bool b =>
        rw [deepDiff_unchanged_branch p (by simp) (by simp [isArr])
          (by simp [jsTypeof]) (by simp)]
        simp [selfUnchanged]
      | num m =>
        rw [deepDiff_unchanged_branch p (by simp) (by simp [isArr])
          (by simp [jsTypeof]) (by simp)]
        simp [selfUnchanged]
      | str s =>
        rw [deepDiff_unchanged_branch p (by simp) (by simp [isArr])
          (by simp [jsTypeof]) (by simp)]
        simp [selfUnchanged]
      | arr l =>
        rw [deepDiff_arr_branch p (by simp) (by simp [isArr])]
        rw [show itemsOf (JSONValue.arr l) = l from rfl,
          diffArrays_perm (List.Perm.refl l) (fun v hv => wf_arr_iff.mp hwf v hv) p
            emptyChanges]
        simp only [selfUnchanged]
        simp [emptyChanges]
      | obj fs =>
        rw [deepDiff_obj_branch p (by simp) (by simp [isArr])
          ⟨by simp [jsTypeof], by simp, by simp⟩]
        rw [diffObjects, jsSetUnion_self (nodup_keys_of_wf hwf)]
        rw [diffKeys_self p ih hwf (keys (JSONValue.obj fs)) emptyChanges
          (fun k hk => hk)]
        simp only [selfUnchanged]
        rw [attach_flatMap fs (fun pr => selfUnchanged (keyPath p pr.1) pr.2)]
        rw [show keys (JSONValue.obj fs) = fs.map Prod.fst from rfl,
          List.flatMap_map]
        have heq : (fs.flatMap fun e =>
            selfUnchanged (keyPath p e.1) (jsGet (JSONValue.obj fs) e.1)) =
            fs.flatMap fun e => selfUnchanged (keyPath p e.1) e.2 := by
          apply List.flatMap_congr
          intro e he
          rw [jsGet_obj_of_mem
            (show (fs.map Prod.fst).Nodup from nodup_keys_of_wf hwf)
            (show (e.1, e.2) ∈ fs by rw [Prod.mk.eta]; exact he)]
        rw [heq]
        simp [emptyChanges]
  exact H (sizeOf X) X le_rfl hwf p

/-- Claim C1, counterexample: for `X = []` the only path of `X` is the root,
a container path, yet `diff(X, X)`'s Unchanged list is empty — containers
never receive an Unchanged record of their own, so Unchanged does not cover
"every container path of X" as claimed. -/
theorem diff_self_empty_array_unchanged_empty :
    diffValues (JSONValue.arr []) (JSONValue.arr []) = ⟨[], [], [], []⟩ := by
  simp [diffValues, deepDiff, jsTypeof, isArr, itemsOf, diffArrays, emptyChanges]

/-- Claim C1, amended: for every well-formed JSON value `X`, `diff(X, X)`
has empty Added, Removed and Modified lists, and its Unchanged list is
exactly `selfUnchanged "" X`: one record per primitive leaf reached through
object recursion and one record per array element (the element as a whole,
at its index path; the array pass does not descend into elements).
Container paths — objects, arrays, and in particular empty containers — get
no record of their own. -/
theorem diff_self_characterisation (X : JSONValue) (hwf : wf X = true) :
    diffValues X X = ⟨[], [], [], selfUnchanged "" X⟩ :=
  deepDiff_self X hwf ""

/-- Witness for the amended claim C1 at `X = {"a": 1, "b": [2]}`. -/
theorem diff_self_characterisation_witness :
    diffValues (JSONValue.obj [("a", JSONValue.num 1), ("b", JSONValue.arr [JSONValue.num 2])])
        (JSONValue.obj [("a", JSONValue.num 1), ("b", JSONValue.arr [JSONValue.num 2])]) =
      ⟨[], [], [], [⟨"a", JSONValue.num 1⟩, ⟨"b[0]", JSONValue.num 2⟩]⟩ := by
  rw [diff_self_characterisation
    (JSONValue.obj [("a", JSONValue.num 1), ("b", JSONValue.arr [JSONValue.num 2])])
    (by simp [wf, nodupB])]
  simp only [selfUnchanged, List.attach_cons, List.attach_nil, List.flatMap_cons,
    List.flatMap_nil, List.map_cons, List.map_nil, List.enum, List.enumFrom,
    List.append_nil, List.nil_append, keyPath, pathOrRoot, indexPath]
  rw [natKey_lt_ten (by omega)]
  rfl

/-! ### Claim C4

Symmetry of the diff.  The Added records of `diff(A, B)` and the Removed
records of `diff(B, A)` are both characterised by one function of the two
sides (`leftovers`), so that projected to path/value pairs they coincide;
Modified records appear with their two values swapped.  The machinery
below characterises the greedy pass 1 of `diffArrays` in closed form. -/

theorem countP_ext {α : Type _} {p q : α → Bool} :
    ∀ l : List α, (∀ a ∈ l, p a = q a) → l.countP p = l.countP q := by
  intro l
  induction l with
  | nil => simp
  | cons x xs ih =>
    intro h
    rw [List.countP_cons, List.countP_cons, h x (by simp),
      ih fun a ha => h a (by simp [ha])]

theorem deepEqual_flip {a b : JSONValue} (ha : wf a = true) (hb : wf b = true)
    (hab : deepEqual a b = true) : deepEqual b a = true := by
  rw [← deepEqual_symm ha hb]
  exact hab

/-- `clsCount v l`: how many members of `l` are deep-equal to `v`. -/
def clsCount (v : JSONValue) (l : List JSONValue) : Nat :=
  l.countP fun w => deepEqual v w

theorem clsCount_congr {a b : JSONValue} (ha : wf a = true) (hb : wf b = true)
    (hab : deepEqual a b = true) (l : List JSONValue)
    (hl : ∀ u ∈ l, wf u = true) : clsCount a l = clsCount b l := by
  apply countP_ext
  intro w hw
  have hw' := hl w hw
  rw [Bool.eq_iff_iff]
  constructor
  · intro h
    exact deepEqual_trans hb ha hw' (deepEqual_flip ha hb hab) h
  · intro h
    exact deepEqual_trans ha hb hw' hab h

theorem clsCount_append (v : JSONValue) (l1 l2 : List JSONValue) :
    clsCount v (l1 ++ l2) = clsCount v l1 + clsCount v l2 := by
  simp [clsCount, List.countP_append]

theorem clsCount_cons (v w : JSONValue) (l : List JSONValue) :
    clsCount v (w :: l) =
      clsCount v l + (if deepEqual v w = true then 1 else 0) := by
  simp [clsCount, List.countP_cons]

theorem clsCount_singleton_pos {v w : JSONValue} (h : deepEqual v w = true) :
    clsCount v [w] = 1 := by
  simp [clsCount, List.countP_cons, h]

theorem clsCount_singleton_neg {v w : JSONValue} (h : ¬deepEqual v w = true) :
    clsCount v [w] = 0 := by
  simp [clsCount, List.countP_cons, h]

/-- The right-hand side of `diffArrays` after the lefts in the multiset `Lp`
have been matched: the item `r` at position `i` is marked used exactly when
fewer copies of its class occur among the earlier right items (`seen`) than
among the matched lefts. -/
def tagMarkedAux (Lp : List JSONValue) :
    List JSONValue → List JSONValue → Nat → List TaggedItem
  | _, [], _ => []
  | seen, r :: rest, i =>
    ⟨r, i, decide (clsCount r seen < clsCount r Lp)⟩ ::
      tagMarkedAux Lp (seen ++ [r]) rest (i + 1)

def tagMarked (Lp R : List JSONValue) : List TaggedItem :=
  tagMarkedAux Lp [] R 0

theorem tagMarkedAux_nilLp (R : List JSONValue) :
    ∀ (seen : List JSONValue) (i : Nat),
    tagMarkedAux [] seen R i = (R.enumFrom i).map fun p => ⟨p.2, p.1, false⟩ := by
  induction R with
  | nil => intro seen i; simp [tagMarkedAux, List.enumFrom]
  | cons r rest ih =>
    intro seen i
    rw [tagMarkedAux, List.enumFrom, List.map_cons, ih (seen ++ [r]) (i + 1)]
    simp [clsCount]

theorem tagMarked_nil (R : List JSONValue) : tagMarked [] R = tagItems R := by
  rw [tagMarked, tagMarkedAux_nilLp, tagItems]
  rfl

/-- `tagItems` with an explicit starting index, recursion-friendly. -/
def tagItemsFrom (i : Nat) : List JSONValue → List TaggedItem
  | [] => []
  | x :: xs => ⟨x, i, false⟩ :: tagItemsFrom (i + 1) xs

theorem tagItemsFrom_eq (L : List JSONValue) : ∀ i : Nat,
    tagItemsFrom i L = (L.enumFrom i).map fun p => ⟨p.2, p.1, false⟩ := by
  induction L with
  | nil => intro i; rfl
  | cons x xs ih => intro i; simp [tagItemsFrom, List.enumFrom, ih]

theorem tagItems_eq_from (L : List JSONValue) : tagItems L = tagItemsFrom 0 L := by
  rw [tagItemsFrom_eq, tagItems]
  rfl

/-- The common symmetric core of `diffArrays`: scanning `subj` in order, an
item survives (stays unmatched) exactly when the opposite side holds no more
copies of its deep-equality class than the already-scanned part of `subj`.
The unmatched lefts of `diffArrays L R` are `leftovers R L [] 0`; its unused
rights are `leftovers L R [] 0`. -/
def leftovers (opp : List JSONValue) :
    List JSONValue → List JSONValue → Nat → List (Nat × JSONValue)
  | [], _, _ => []
  | s :: subj, seen, i =>
    if clsCount s opp ≤ clsCount s seen
    then (i, s) :: leftovers opp subj (seen ++ [s]) (i + 1)
    else leftovers opp subj (seen ++ [s]) (i + 1)

/-- Once the earlier right items already hold more copies of `v`'s class
than the matched lefts, crediting one more matched `v` changes no later
flag. -/
theorem tagMarkedAux_stable (Lp : List JSONValue) (v : JSONValue)
    (hwv : wf v = true) (hwLp : ∀ u ∈ Lp, wf u = true) :
    ∀ (rest seen : List JSONValue) (i : Nat),
    (∀ u ∈ rest, wf u = true) → (∀ u ∈ seen, wf u = true) →
    clsCount v Lp < clsCount v seen →
    tagMarkedAux (Lp ++ [v]) seen rest i = tagMarkedAux Lp seen rest i := by
  intro rest
  induction rest with
  | nil => intro seen i _ _ _; rfl
  | cons r rest ih =>
    intro seen i hwrest hwseen hlt
    have hwr : wf r = true := hwrest r (by simp)
    have hwseen' : ∀ u ∈ seen ++ [r], wf u = true := by
      intro u hu
      rcases List.mem_append.mp hu with h | h
      · exact hwseen u h
      · simp at h
        subst h
        exact hwr
    simp only [tagMarkedAux]
    have htail : tagMarkedAux (Lp ++ [v]) (seen ++ [r]) rest (i + 1) =
        tagMarkedAux Lp (seen ++ [r]) rest (i + 1) := by
      apply ih (seen ++ [r]) (i + 1) (fun u hu => hwrest u (by simp [hu])) hwseen'
      rw [clsCount_append]
      omega
    by_cases hvr : deepEqual v r = true
    · have h1 : clsCount r Lp = clsCount v Lp :=
        clsCount_congr hwr hwv (deepEqual_flip hwv hwr hvr) Lp hwLp
      have h2 : clsCount r seen = clsCount v seen :=
        clsCount_congr hwr hwv (deepEqual_flip hwv hwr hvr) seen hwseen
      have h3 : clsCount r (Lp ++ [v]) = clsCount r Lp + 1 := by
        rw [clsCount_append, clsCount_singleton_pos (deepEqual_flip hwv hwr hvr)]
      have hflag : decide (clsCount r seen < clsCount r (Lp ++ [v])) =
          decide (clsCount r seen < clsCount r Lp) := by
        rw [decide_eq_decide, h3, h1, h2]
        omega
      rw [hflag, htail]
    · have hrv : deepEqual r v = false := by
        rw [deepEqual_symm hwr hwv]
        exact Bool.eq_false_iff.mpr hvr
      have h3 : clsCount r (Lp ++ [v]) = clsCount r Lp := by
        rw [clsCount_append, clsCount_singleton_neg (by simp [hrv])]
        omega
      rw [h3, htail]

/-- `markFirstMatch` on a marked right-hand side: it succeeds exactly when
the whole right side still holds an unclaimed copy of `v`'s class, and
success is precisely crediting one more matched `v`. -/
theorem markFirstMatch_tagMarkedAux (Lp : List JSONValue) (v : JSONValue)
    (hwv : wf v = true) (hwLp : ∀ u ∈ Lp, wf u = true) :
    ∀ (R seen : List JSONValue) (i : Nat),
    (∀ u ∈ R, wf u = true) → (∀ u ∈ seen, wf u = true) →
    clsCount v seen ≤ clsCount v Lp →
    markFirstMatch v (tagMarkedAux Lp seen R i) =
      if clsCount v seen + clsCount v R ≤ clsCount v Lp then none
      else some (tagMarkedAux (Lp ++ [v]) seen R i) := by
  intro R
  induction R with
  | nil =>
    intro seen i _ _ hs
    rw [if_pos (by simpa [clsCount] using hs)]
    rfl
  | cons r rest ih =>
    intro seen i hwR hwseen hs
    have hwr : wf r = true := hwR r (by simp)
    have hwrest : ∀ u ∈ rest, wf u = true := fun u hu => hwR u (by simp [hu])
    have hwseen' : ∀ u ∈ seen ++ [r], wf u = true := by
      intro u hu
      rcases List.mem_append.mp hu with h | h
      · exact hwseen u h
      · simp at h
        subst h
        exact hwr
    simp only [tagMarkedAux, markFirstMatch]
    by_cases hvr : deepEqual v r = true
    · have hrLp : clsCount r Lp = clsCount v Lp :=
        clsCount_congr hwr hwv (deepEqual_flip hwv hwr hvr) Lp hwLp
      have hrseen : clsCount r seen = clsCount v seen :=
        clsCount_congr hwr hwv (deepEqual_flip hwv hwr hvr) seen hwseen
      have hcons : clsCount v (r :: rest) = clsCount v rest + 1 := by
        rw [clsCount_cons, if_pos hvr]
      have happ : clsCount v (seen ++ [r]) = clsCount v seen + 1 := by
        rw [clsCount_append, clsCount_singleton_pos hvr]
      have hrLp1 : clsCount r (Lp ++ [v]) = clsCount v Lp + 1 := by
        rw [clsCount_append, hrLp,
          clsCount_singleton_pos (deepEqual_flip hwv hwr hvr)]
      by_cases hused : clsCount r seen < clsCount r Lp
      · -- an already-used copy of the class: skipped
        rw [if_pos (decide_eq_true hused)]
        have hvlt : clsCount v seen < clsCount v Lp := by
          rw [← hrseen, ← hrLp]
          exact hused
        rw [ih (seen ++ [r]) (i + 1) hwrest hwseen' (by rw [happ]; omega)]
        have hh2 : decide (clsCount r seen < clsCount r (Lp ++ [v])) = true :=
          decide_eq_true (by rw [hrLp1, hrseen]; omega)
        rw [hh2, decide_eq_true hused]
        by_cases hC : clsCount v seen + clsCount v (r :: rest) ≤ clsCount v Lp
        · rw [if_pos (show clsCount v (seen ++ [r]) + clsCount v rest ≤
              clsCount v Lp by rw [happ]; rw [hcons] at hC; omega),
            if_pos hC]
          rfl
        · rw [if_neg (show ¬clsCount v (seen ++ [r]) + clsCount v rest ≤
              clsCount v Lp by rw [happ]; rw [hcons] at hC; omega),
            if_neg hC]
          rfl
      · -- first unused copy of the class: the match lands here
        have hveq : clsCount v seen = clsCount v Lp := by
          rw [← hrseen, ← hrLp]
          omega
        rw [if_neg (by simpa using hused), if_pos hvr]
        rw [if_neg (show ¬clsCount v seen + clsCount v (r :: rest) ≤
            clsCount v Lp by rw [hcons]; omega)]
        rw [tagMarkedAux_stable Lp v hwv hwLp rest (seen ++ [r]) (i + 1)
          hwrest hwseen' (by rw [happ]; omega)]
        have hflag : decide (clsCount r seen < clsCount r (Lp ++ [v])) = true :=
          decide_eq_true (by rw [hrLp1, hrseen, hveq]; omega)
        rw [hflag]
    · -- a copy of another class: skipped whatever its flag
      have hrv : deepEqual r v = false := by
        rw [deepEqual_symm hwr hwv]
        exact Bool.eq_false_iff.mpr hvr
      have hcons : clsCount v (r :: rest) = clsCount v rest := by
        rw [clsCount_cons, if_neg hvr]
        omega
      have happ : clsCount v (seen ++ [r]) = clsCount v seen := by
        rw [clsCount_append, clsCount_singleton_neg hvr]
        omega
      have hLpv : clsCount r (Lp ++ [v]) = clsCount r Lp := by
        rw [clsCount_append, clsCount_singleton_neg (by simp [hrv])]
        omega
      rw [hLpv]
      by_cases hused : clsCount r seen < clsCount r Lp
      · rw [if_pos (decide_eq_true hused)]
        rw [ih (seen ++ [r]) (i + 1) hwrest hwseen' (by rw [happ]; exact hs)]
        by_cases hC : clsCount v seen + clsCount v (r :: rest) ≤ clsCount v Lp
        · rw [if_pos (show clsCount v (seen ++ [r]) + clsCount v rest ≤
              clsCount v Lp by rw [happ]; rw [hcons] at hC; omega),
            if_pos hC]
          rfl
        · rw [if_neg (show ¬clsCount v (seen ++ [r]) + clsCount v rest ≤
              clsCount v Lp by rw [happ]; rw [hcons] at hC; omega),
            if_neg hC]
          rfl
      · rw [if_neg (by simpa using hused), if_neg hvr]
        rw [ih (seen ++ [r]) (i + 1) hwrest hwseen' (by rw [happ]; exact hs)]
        by_cases hC : clsCount v seen + clsCount v (r :: rest) ≤ clsCount v Lp
        · rw [if_pos (show clsCount v (seen ++ [r]) + clsCount v rest ≤
              clsCount v Lp by rw [happ]; rw [hcons] at hC; omega),
            if_pos hC]
          rfl
        · rw [if_neg (show ¬clsCount v (seen ++ [r]) + clsCount v rest ≤
              clsCount v Lp by rw [happ]; rw [hcons] at hC; omega),
            if_neg hC]
          rfl

/-- Full characterisation of pass 1 over a marked right-hand side: with `P`
the left items already scanned and `Lp` the matched ones among them — class
by class the smaller of `P`'s and `R`'s count — the unmatched lefts are
exactly the `leftovers` of `R` against the remaining lefts, and the final
rights are marked by the total matched multiset. -/
theorem pass1_tagMarked (path : String) (R : List JSONValue)
    (hwR : ∀ u ∈ R, wf u = true) :
    ∀ (Ls : List JSONValue) (i : Nat) (P Lp : List JSONValue) (c : Changes),
    (∀ u ∈ Ls, wf u = true) → (∀ u ∈ P, wf u = true) →
    (∀ u ∈ Lp, wf u = true) →
    (∀ v, wf v = true → clsCount v Lp = min (clsCount v P) (clsCount v R)) →
    (pass1 path (tagItemsFrom i Ls) (tagMarked Lp R) c).1 =
      (leftovers R Ls P i).map (fun q => ⟨q.2, q.1, false⟩) ∧
    ∃ Lp' : List JSONValue, (∀ u ∈ Lp', wf u = true) ∧
      (∀ v, wf v = true →
        clsCount v Lp' = min (clsCount v (P ++ Ls)) (clsCount v R)) ∧
      (pass1 path (tagItemsFrom i Ls) (tagMarked Lp R) c).2.1 = tagMarked Lp' R := by
  intro Ls
  induction Ls with
  | nil =>
    intro i P Lp c _ _ hwLp hmin
    refine ⟨rfl, Lp, hwLp, ?_, rfl⟩
    intro v hv
    simpa using hmin v hv
  | cons x Ls ih =>
    intro i P Lp c hwLs hwP hwLp hmin
    have hwx : wf x = true := hwLs x (by simp)
    have hwLs' : ∀ u ∈ Ls, wf u = true := fun u hu => hwLs u (by simp [hu])
    have hwPx : ∀ u ∈ P ++ [x], wf u = true := by
      intro u hu
      rcases List.mem_append.mp hu with h | h
      · exact hwP u h
      · simp at h
        subst h
        exact hwx
    have hmark := markFirstMatch_tagMarkedAux Lp x hwx hwLp R [] 0 hwR
      (by simp) (by simp [clsCount])
    rw [show clsCount x ([] : List JSONValue) = 0 from rfl, Nat.zero_add] at hmark
    by_cases hsurv : clsCount x R ≤ clsCount x P
    · -- `x` survives: the right side holds no unclaimed copy of its class
      have hm : markFirstMatch x (tagMarked Lp R) = none := by
        show markFirstMatch x (tagMarkedAux Lp [] R 0) = none
        rw [hmark, if_pos (by rw [hmin x hwx]; omega)]
      have hmin' : ∀ v, wf v = true →
          clsCount v Lp = min (clsCount v (P ++ [x])) (clsCount v R) := by
        intro v hv
        by_cases hvx : deepEqual v x = true
        · have hPc := clsCount_congr hv hwx hvx P hwP
          have hRc := clsCount_congr hv hwx hvx R hwR
          rw [clsCount_append, clsCount_singleton_pos hvx, hmin v hv, hPc, hRc]
          omega
        · rw [clsCount_append, clsCount_singleton_neg hvx, hmin v hv]
          omega
      obtain ⟨ih1, Lp', hwLp', hLp'min, ih2⟩ :=
        ih (i + 1) (P ++ [x]) Lp c hwLs' hwPx hwLp hmin'
      constructor
      · simp only [tagItemsFrom, pass1, hm, leftovers, if_pos hsurv,
          List.map_cons]
        rw [ih1]
      · refine ⟨Lp', hwLp', ?_, ?_⟩
        · intro v hv
          have h := hLp'min v hv
          rwa [List.append_assoc, List.singleton_append] at h
        · simp only [tagItemsFrom, pass1, hm]
          exact ih2
    · -- `x` is matched
      have hm : markFirstMatch x (tagMarked Lp R) =
          some (tagMarked (Lp ++ [x]) R) := by
        show markFirstMatch x (tagMarkedAux Lp [] R 0) =
          some (tagMarkedAux (Lp ++ [x]) [] R 0)
        rw [hmark, if_neg (by rw [hmin x hwx]; omega)]
      have hwLpx : ∀ u ∈ Lp ++ [x], wf u = true := by
        intro u hu
        rcases List.mem_append.mp hu with h | h
        · exact hwLp u h
        · simp at h
          subst h
          exact hwx
      have hmin' : ∀ v, wf v = true →
          clsCount v (Lp ++ [x]) =
            min (clsCount v (P ++ [x])) (clsCount v R) := by
        intro v hv
        by_cases hvx : deepEqual v x = true
        · have hPc := clsCount_congr hv hwx hvx P hwP
          have hRc := clsCount_congr hv hwx hvx R hwR
          rw [clsCount_append, clsCount_append, clsCount_singleton_pos hvx,
            hmin v hv, hPc, hRc]
          omega
        · rw [clsCount_append, clsCount_append, clsCount_singleton_neg hvx,
            hmin v hv]
          omega
      obtain ⟨ih1, Lp', hwLp', hLp'min, ih2⟩ :=
        ih (i + 1) (P ++ [x]) (Lp ++ [x])
          { c with unchanged := c.unchanged ++ [⟨indexPath path i, x⟩] }
          hwLs' hwPx hwLpx hmin'
      constructor
      · simp only [tagItemsFrom, pass1, hm, leftovers, if_neg hsurv]
        exact ih1
      · refine ⟨Lp', hwLp', ?_, ?_⟩
        · intro v hv
          have h := hLp'min v hv
          rwa [List.append_assoc, List.singleton_append] at h
        · simp only [tagItemsFrom, pass1, hm]
          exact ih2

/-- The unused items of a fully-marked right-hand side are its `leftovers`
against the opposite side: with `Lp` holding, class by class, the smaller of
the two sides' counts, a right item stays unused exactly when the opposite
side holds no more copies of its class than the right items before it. -/
theorem tagMarked_unused_leftovers (L : List JSONValue)
    (hwL : ∀ u ∈ L, wf u = true) (Lp : List JSONValue)
    (hwLp : ∀ u ∈ Lp, wf u = true) :
    ∀ (R seen : List JSONValue) (i : Nat),
    (∀ u ∈ R, wf u = true) → (∀ u ∈ seen, wf u = true) →
    (∀ v, wf v = true →
      clsCount v Lp = min (clsCount v L) (clsCount v (seen ++ R))) →
    (tagMarkedAux Lp seen R i).filter (fun t => !t.used) =
      (leftovers L R seen i).map fun q => ⟨q.2, q.1, false⟩ := by
  intro R
  induction R with
  | nil => intro seen i _ _ _; rfl
  | cons r rest ih =>
    intro seen i hwR hwseen hmin
    have hwr : wf r = true := hwR r (by simp)
    have hwrest : ∀ u ∈ rest, wf u = true := fun u hu => hwR u (by simp [hu])
    have hwseen' : ∀ u ∈ seen ++ [r], wf u = true := by
      intro u hu
      rcases List.mem_append.mp hu with h | h
      · exact hwseen u h
      · simp at h
        subst h
        exact hwr
    have hmin' : ∀ v, wf v = true →
        clsCount v Lp = min (clsCount v L) (clsCount v ((seen ++ [r]) ++ rest)) := by
      intro v hv
      rw [List.append_assoc, List.singleton_append]
      exact hmin v hv
    have htot : clsCount r seen < clsCount r (seen ++ (r :: rest)) := by
      rw [clsCount_append, clsCount_cons, if_pos (deepEqual_refl r)]
      omega
    simp only [tagMarkedAux, leftovers]
    by_cases hsurv : clsCount r L ≤ clsCount r seen
    · have hflag : decide (clsCount r seen < clsCount r Lp) = false := by
        rw [decide_eq_false_iff_not, hmin r hwr]
        omega
      rw [hflag, if_pos hsurv,
        List.filter_cons_of_pos (by simp), List.map_cons,
        ih (seen ++ [r]) (i + 1) hwrest hwseen' hmin']
    · have hflag : decide (clsCount r seen < clsCount r Lp) = true := by
        rw [decide_eq_true_eq, hmin r hwr]
        omega
      rw [hflag, if_neg hsurv,
        List.filter_cons_of_neg (by simp),
        ih (seen ++ [r]) (i + 1) hwrest hwseen' hmin']

/-- Pass 2 of `diffArrays` in closed form: the appended Removed records are
the `leftovers` of the left side against the right side. -/
theorem diffArrays_removed_eq (L R : List JSONValue)
    (hwL : ∀ u ∈ L, wf u = true) (hwR : ∀ u ∈ R, wf u = true)
    (path : String) (c : Changes) :
    (diffArrays L R path c).removed = c.removed ++
      (leftovers R L [] 0).map fun q =>
        (⟨indexPath path q.1, q.2, "array_item_removed", some q.1⟩ : ValRec) := by
  by_cases hemp : L.length = 0 ∧ R.length = 0
  · rw [diffArrays, if_pos hemp]
    have hL : L = [] := List.length_eq_zero.mp hemp.1
    subst hL
    simp [leftovers]
  · obtain ⟨h1, Lp', hwLp', hLp'min, h2⟩ :=
      pass1_tagMarked path R hwR L 0 [] [] c hwL (by simp) (by simp)
        (fun v hv => by simp [clsCount])
    rw [← tagItems_eq_from L, tagMarked_nil R] at h1
    obtain ⟨hca, hcr, hcm⟩ := pass1_fields path (tagItems L) (tagItems R) c
    simp only [diffArrays, if_neg hemp]
    rw [hcr, h1, List.map_map]
    rfl

/-- Pass 3 of `diffArrays` in closed form: the appended Added records are
the `leftovers` of the right side against the left side. -/
theorem diffArrays_added_eq (L R : List JSONValue)
    (hwL : ∀ u ∈ L, wf u = true) (hwR : ∀ u ∈ R, wf u = true)
    (path : String) (c : Changes) :
    (diffArrays L R path c).added = c.added ++
      (leftovers L R [] 0).map fun q =>
        (⟨indexPath path q.1, q.2, "array_item_added", some q.1⟩ : ValRec) := by
  by_cases hemp : L.length = 0 ∧ R.length = 0
  · rw [diffArrays, if_pos hemp]
    have hR : R = [] := List.length_eq_zero.mp hemp.2
    subst hR
    simp [leftovers]
  · obtain ⟨h1, Lp', hwLp', hLp'min, h2⟩ :=
      pass1_tagMarked path R hwR L 0 [] [] c hwL (by simp) (by simp)
        (fun v hv => by simp [clsCount])
    rw [← tagItems_eq_from L, tagMarked_nil R] at h2
    have hfil : (tagMarked Lp' R).filter (fun t => !t.used) =
        (leftovers L R [] 0).map fun q => (⟨q.2, q.1, false⟩ : TaggedItem) :=
      tagMarked_unused_leftovers L hwL Lp' hwLp' R [] 0 hwR (by simp)
        (fun v hv => by
          have h := hLp'min v hv
          simp only [List.nil_append] at h ⊢
          exact h)
    obtain ⟨hca, hcr, hcm⟩ := pass1_fields path (tagItems L) (tagItems R) c
    simp only [diffArrays, if_neg hemp]
    rw [hca, h2, hfil, List.map_map]
    rfl

/-- Projection of an Added/Removed record to its path/value pair, the
granularity at which the symmetry claim compares the two diffs. -/
def pvOf (r : ValRec) : String × JSONValue := (r.path, r.value)

/-- A Modified record with `leftValue` and `rightValue` swapped. -/
def swapMod (m : ModRec) : ModRec := ⟨m.path, m.rightValue, m.leftValue, m.type⟩

/-- The Added records one key of the `diffObjects` loop contributes. -/
def keyAdded (left right : JSONValue) (path k : String) : List ValRec :=
  if hasKey left k = true then
    if hasKey right k = true then
      (deepDiff (jsGet left k) (jsGet right k) (keyPath path k)).added
    else []
  else [⟨keyPath path k, jsGet right k, "property_added", none⟩]

/-- The Removed records one key of the `diffObjects` loop contributes. -/
def keyRemoved (left right : JSONValue) (path k : String) : List ValRec :=
  if hasKey left k = true then
    if hasKey right k = true then
      (deepDiff (jsGet left k) (jsGet right k) (keyPath path k)).removed
    else [⟨keyPath path k, jsGet left k, "property_removed", none⟩]
  else []

/-- The Modified records one key of the `diffObjects` loop contributes. -/
def keyModified (left right : JSONValue) (path k : String) : List ModRec :=
  if hasKey left k = true then
    if hasKey right k = true then
      (deepDiff (jsGet left k) (jsGet right k) (keyPath path k)).modified
    else []
  else []

/-- `diffKeys` decomposed: each field is the input field followed by the
per-key contributions, in key order. -/
theorem diffKeys_decomp :
    ∀ (ks : List String) (l r : JSONValue) (p : String) (c : Changes),
    (diffKeys ks l r p c).added = c.added ++ ks.flatMap (keyAdded l r p) ∧
    (diffKeys ks l r p c).removed = c.removed ++ ks.flatMap (keyRemoved l r p) ∧
    (diffKeys ks l r p c).modified = c.modified ++ ks.flatMap (keyModified l r p) := by
  intro ks
  induction ks with
  | nil =>
    intro l r p c
    rw [diffKeys]
    simp
  | cons k ks ih =>
    intro l r p c
    rw [diffKeys]
    by_cases h1 : hasKey l k = true
    · by_cases h2 : hasKey r k = true
      · rw [dif_pos h1, dif_pos h2]
        obtain ⟨ia, ir, im⟩ := ih l r p
          ⟨c.added ++ (deepDiff (jsGet l k) (jsGet r k) (keyPath p k)).added,
           c.removed ++ (deepDiff (jsGet l k) (jsGet r k) (keyPath p k)).removed,
           c.modified ++ (deepDiff (jsGet l k) (jsGet r k) (keyPath p k)).modified,
           c.unchanged ++ (deepDiff (jsGet l k) (jsGet r k) (keyPath p k)).unchanged⟩
        rw [ia, ir, im]
        simp [keyAdded, keyRemoved, keyModified, h1, h2]
      · rw [dif_pos h1, dif_neg h2]
        obtain ⟨ia, ir, im⟩ := ih l r p
          { c with removed := c.removed ++
              [⟨keyPath p k, jsGet l k, "property_removed", none⟩] }
        rw [ia, ir, im]
        simp [keyAdded, keyRemoved, keyModified, h1, h2]
    · rw [dif_neg h1]
      obtain ⟨ia, ir, im⟩ := ih l r p
        { c with added := c.added ++
            [⟨keyPath p k, jsGet r k, "property_added", none⟩] }
      rw [ia, ir, im]
      simp [keyAdded, keyRemoved, keyModified, h1]

theorem mem_dedupFirstAux :
    ∀ (l seen : List String) (x : String),
    x ∈ dedupFirstAux seen l ↔ x ∈ l ∧ x ∉ seen := by
  intro l
  induction l with
  | nil => intro seen x; simp [dedupFirstAux]
  | cons k ks ih =>
    intro seen x
    rw [dedupFirstAux]
    by_cases hk : k ∈ seen
    · rw [if_pos hk, ih]
      constructor
      · rintro ⟨h1, h2⟩
        exact ⟨by simp [h1], h2⟩
      · rintro ⟨h1, h2⟩
        rcases List.mem_cons.mp h1 with rfl | h1
        · exact absurd hk h2
        · exact ⟨h1, h2⟩
    · rw [if_neg hk]
      constructor
      · intro h
        rcases List.mem_cons.mp h with rfl | h
        · exact ⟨by simp, hk⟩
        · have h' := (ih (k :: seen) x).mp h
          exact ⟨by simp [h'.1], fun hs => h'.2 (by simp [hs])⟩
      · rintro ⟨h1, h2⟩
        rcases List.mem_cons.mp h1 with rfl | h1
        · simp
        · by_cases hxk : x = k
          · subst hxk
            simp
          · simp only [List.mem_cons]
            right
            exact (ih (k :: seen) x).mpr ⟨h1, by simp [hxk, h2]⟩

theorem mem_jsSetUnion (l : List String) (x : String) :
    x ∈ jsSetUnion l ↔ x ∈ l := by
  rw [jsSetUnion, mem_dedupFirstAux]
  simp

theorem keyAdded_symm_mem (l r : JSONValue) (hl : wf l = true)
    (hr : wf r = true) (p k : String)
    (ihA : ∀ a b : JSONValue, sizeOf a + sizeOf b < sizeOf l + sizeOf r →
      wf a = true → wf b = true → ∀ (p' : String) (q : String × JSONValue),
      q ∈ (deepDiff a b p').added.map pvOf ↔
        q ∈ (deepDiff b a p').removed.map pvOf)
    (hk : k ∈ keys l ∨ k ∈ keys r) (q : String × JSONValue) :
    q ∈ (keyAdded l r p k).map pvOf ↔ q ∈ (keyRemoved r l p k).map pvOf := by
  by_cases h1 : hasKey l k = true
  · by_cases h2 : hasKey r k = true
    · simp only [keyAdded, keyRemoved, if_pos h1, if_pos h2]
      exact ihA (jsGet l k) (jsGet r k)
        (by have hs1 := sizeOf_jsGet h1; have hs2 := sizeOf_jsGet h2; omega)
        (wf_jsGet hl h1) (wf_jsGet hr h2) (keyPath p k) q
    · simp only [keyAdded, keyRemoved, if_pos h1, if_neg h2]
  · have h2 : hasKey r k = true := by
      rcases hk with h | h
      · exact absurd (hasKey_of_mem_keys h) h1
      · exact hasKey_of_mem_keys h
    simp only [keyAdded, keyRemoved, if_neg h1, if_pos h2]
    simp [pvOf]

theorem keyModified_symm_mem (l r : JSONValue) (hl : wf l = true)
    (hr : wf r = true) (p k : String)
    (ihM : ∀ a b : JSONValue, sizeOf a + sizeOf b < sizeOf l + sizeOf r →
      wf a = true → wf b = true → ∀ (p' : String) (m : ModRec),
      m ∈ (deepDiff a b p').modified ↔ swapMod m ∈ (deepDiff b a p').modified)
    (m : ModRec) :
    m ∈ keyModified l r p k ↔ swapMod m ∈ keyModified r l p k := by
  by_cases h1 : hasKey l k = true
  · by_cases h2 : hasKey r k = true
    · simp only [keyModified, if_pos h1, if_pos h2]
      exact ihM (jsGet l k) (jsGet r k)
        (by have hs1 := sizeOf_jsGet h1; have hs2 := sizeOf_jsGet h2; omega)
        (wf_jsGet hl h1) (wf_jsGet hr h2) (keyPath p k) m
    · simp only [keyModified, if_pos h1, if_neg h2]
      simp
  · simp only [keyModified, if_neg h1]
    by_cases h2 : hasKey r k = true
    · simp only [if_pos h2, if_neg h1]
      simp
    · simp only [if_neg h2]
      simp

/-- Symmetry of `deepDiff`, by strong induction on the combined size: the
Added records of one orientation are, as path/value pairs, the Removed
records of the other, and Modified records appear with their two values
swapped. -/
theorem deepDiff_symm_core :
    ∀ (n : Nat) (l r : JSONValue), sizeOf l + sizeOf r ≤ n →
    wf l = true → wf r = true → ∀ p : String,
    (∀ q : String × JSONValue,
      q ∈ (deepDiff l r p).added.map pvOf ↔
        q ∈ (deepDiff r l p).removed.map pvOf) ∧
    (∀ m : ModRec,
      m ∈ (deepDiff l r p).modified ↔ swapMod m ∈ (deepDiff r l p).modified) := by
  intro n
  induction n using Nat.strong_induction_on with
  | _ n ihn =>
    intro l r hn hl hr p
    have ihA : ∀ a b : JSONValue, sizeOf a + sizeOf b < sizeOf l + sizeOf r →
        wf a = true → wf b = true → ∀ (p' : String) (q : String × JSONValue),
        q ∈ (deepDiff a b p').added.map pvOf ↔
          q ∈ (deepDiff b a p').removed.map pvOf :=
      fun a b hab ha hb p' q =>
        (ihn (sizeOf a + sizeOf b) (by omega) a b le_rfl ha hb p').1 q
    have ihM : ∀ a b : JSONValue, sizeOf a + sizeOf b < sizeOf l + sizeOf r →
        wf a = true → wf b = true → ∀ (p' : String) (m : ModRec),
        m ∈ (deepDiff a b p').modified ↔
          swapMod m ∈ (deepDiff b a p').modified :=
      fun a b hab ha hb p' m =>
        (ihn (sizeOf a + sizeOf b) (by omega) a b le_rfl ha hb p').2 m
    by_cases hb1 : jsTypeof l ≠ jsTypeof r
    · rw [deepDiff_typeof_branch p hb1,
        deepDiff_typeof_branch p (fun h => hb1 h.symm)]
      constructor
      · intro q
        simp
      · intro m
        obtain ⟨mp, ml, mr, mt⟩ := m
        simp only [List.mem_singleton, swapMod, ModRec.mk.injEq]
        tauto
    · have hteq : jsTypeof l = jsTypeof r := not_not.mp hb1
      by_cases hb2 : (isArr l && isArr r) = true
      · have hb2' : (isArr r && isArr l) = true := by
          rw [Bool.and_comm]
          exact hb2
        rw [deepDiff_arr_branch p hb1 hb2,
          deepDiff_arr_branch p (fun h => hb1 h.symm) hb2']
        obtain ⟨hal, har⟩ := Bool.and_eq_true_iff.mp hb2
        obtain ⟨L0, rfl⟩ := isArr_exists hal
        obtain ⟨R0, rfl⟩ := isArr_exists har
        have hwL0 : ∀ u ∈ L0, wf u = true := wf_arr_iff.mp hl
        have hwR0 : ∀ u ∈ R0, wf u = true := wf_arr_iff.mp hr
        rw [show itemsOf (JSONValue.arr L0) = L0 from rfl,
          show itemsOf (JSONValue.arr R0) = R0 from rfl]
        constructor
        · intro q
          rw [diffArrays_added_eq L0 R0 hwL0 hwR0 p emptyChanges,
            diffArrays_removed_eq R0 L0 hwR0 hwL0 p emptyChanges]
          simp only [emptyChanges, List.nil_append, List.map_map]
          exact Iff.rfl
        · intro m
          rw [diffArrays_modified_eq L0 R0 p emptyChanges,
            diffArrays_modified_eq R0 L0 p emptyChanges]
          simp [emptyChanges]
      · have hb2f : (isArr l && isArr r) = false := Bool.eq_false_iff.mpr hb2
        have hb2f' : (isArr r && isArr l) = false := by
          rw [Bool.and_comm]
          exact hb2f
        by_cases hb3 : jsTypeof l = "object" ∧ l ≠ JSONValue.null ∧
            r ≠ JSONValue.null
        · have hb3' : jsTypeof r = "object" ∧ r ≠ JSONValue.null ∧
              l ≠ JSONValue.null := ⟨hteq ▸ hb3.1, hb3.2.2, hb3.2.1⟩
          rw [deepDiff_obj_branch p hb1 hb2f hb3,
            deepDiff_obj_branch p (fun h => hb1 h.symm) hb2f' hb3',
            diffObjects, diffObjects]
          obtain ⟨da1, dr1, dm1⟩ := diffKeys_decomp
            (jsSetUnion (keys l ++ keys r)) l r p emptyChanges
          obtain ⟨da2, dr2, dm2⟩ := diffKeys_decomp
            (jsSetUnion (keys r ++ keys l)) r l p emptyChanges
          constructor
          · intro q
            rw [da1, dr2]
            simp only [emptyChanges, List.nil_append, List.mem_map,
              List.mem_flatMap]
            constructor
            · rintro ⟨a, ⟨k, hk, ha⟩, hpv⟩
              have hk' := List.mem_append.mp ((mem_jsSetUnion _ k).mp hk)
              have hmem : q ∈ (keyRemoved r l p k).map pvOf :=
                (keyAdded_symm_mem l r hl hr p k ihA hk' q).mp
                  (List.mem_map.mpr ⟨a, ha, hpv⟩)
              obtain ⟨b, hb, hbq⟩ := List.mem_map.mp hmem
              exact ⟨b, ⟨k, (mem_jsSetUnion _ k).mpr
                (List.mem_append.mpr hk'.symm), hb⟩, hbq⟩
            · rintro ⟨b, ⟨k, hk, hb⟩, hpv⟩
              have hk' := (List.mem_append.mp ((mem_jsSetUnion _ k).mp hk)).symm
              have hmem : q ∈ (keyAdded l r p k).map pvOf :=
                (keyAdded_symm_mem l r hl hr p k ihA hk' q).mpr
                  (List.mem_map.mpr ⟨b, hb, hpv⟩)
              obtain ⟨a, ha, haq⟩ := List.mem_map.mp hmem
              exact ⟨a, ⟨k, (mem_jsSetUnion _ k).mpr
                (List.mem_append.mpr hk'), ha⟩, haq⟩
          · intro m
            rw [dm1, dm2]
            simp only [emptyChanges, List.nil_append, List.mem_flatMap]
            constructor
            · rintro ⟨k, hk, hm⟩
              refine ⟨k, (mem_jsSetUnion _ k).mpr (List.mem_append.mpr
                (List.mem_append.mp ((mem_jsSetUnion _ k).mp hk)).symm), ?_⟩
              exact (keyModified_symm_mem l r hl hr p k ihM m).mp hm
            · rintro ⟨k, hk, hm⟩
              refine ⟨k, (mem_jsSetUnion _ k).mpr (List.mem_append.mpr
                (List.mem_append.mp ((mem_jsSetUnion _ k).mp hk)).symm), ?_⟩
              exact (keyModified_symm_mem l r hl hr p k ihM m).mpr hm
        · by_cases hb4 : l = r
          · subst hb4
            rw [deepDiff_unchanged_branch p hb1 hb2f hb3 (by simp)]
            constructor
            · intro q
              simp
            · intro m
              simp
          · have hb3'' : ¬(jsTypeof r = "object" ∧ r ≠ JSONValue.null ∧
                l ≠ JSONValue.null) :=
              fun hc => hb3 ⟨hteq.trans hc.1, hc.2.2, hc.2.1⟩
            rw [deepDiff_modified_branch p hb1 hb2f hb3 hb4,
              deepDiff_modified_branch p (fun h => hb1 h.symm) hb2f' hb3''
                (fun h => hb4 h.symm)]
            constructor
            · intro q
              simp
            · intro m
              obtain ⟨mp, ml, mr, mt⟩ := m
              simp only [List.mem_singleton, swapMod, ModRec.mk.injEq]
              tauto

/-- Claim C4: for every pair of well-formed JSON values `A` and `B`, the
Added set of `diff(A, B)` equals, as a set of path/value pairs, the Removed
set of `diff(B, A)` and vice versa, and a Modified record occurs in
`diff(A, B)` exactly when it occurs in `diff(B, A)` with `leftValue` and
`rightValue` swapped. -/
theorem diff_symmetry (A B : JSONValue) (hA : wf A = true) (hB : wf B = true) :
    (∀ q : String × JSONValue,
      q ∈ (diffValues A B).added.map pvOf ↔
        q ∈ (diffValues B A).removed.map pvOf) ∧
    (∀ q : String × JSONValue,
      q ∈ (diffValues A B).removed.map pvOf ↔
        q ∈ (diffValues B A).added.map pvOf) ∧
    (∀ m : ModRec,
      m ∈ (diffValues A B).modified ↔ swapMod m ∈ (diffValues B A).modified) := by
  obtain ⟨h1, h3⟩ := deepDiff_symm_core (sizeOf A + sizeOf B) A B le_rfl hA hB ""
  obtain ⟨h2, _⟩ := deepDiff_symm_core (sizeOf B + sizeOf A) B A le_rfl hB hA ""
  exact ⟨h1, fun q => (h2 q).symm, h3⟩

/-- Witness for claim C4 at `A = {"a": 1}`, `B = {"a": 2}`. -/
theorem diff_symmetry_witness :
    wf (JSONValue.obj [("a", JSONValue.num 1)]) = true ∧
    wf (JSONValue.obj [("a", JSONValue.num 2)]) = true ∧
    ((∀ q : String × JSONValue,
      q ∈ (diffValues (JSONValue.obj [("a", JSONValue.num 1)])
            (JSONValue.obj [("a", JSONValue.num 2)])).added.map pvOf ↔
        q ∈ (diffValues (JSONValue.obj [("a", JSONValue.num 2)])
            (JSONValue.obj [("a", JSONValue.num 1)])).removed.map pvOf) ∧
    (∀ q : String × JSONValue,
      q ∈ (diffValues (JSONValue.obj [("a", JSONValue.num 1)])
            (JSONValue.obj [("a", JSONValue.num 2)])).removed.map pvOf ↔
        q ∈ (diffValues (JSONValue.obj [("a", JSONValue.num 2)])
            (JSONValue.obj [("a", JSONValue.num 1)])).added.map pvOf) ∧
    (∀ m : ModRec,
      m ∈ (diffValues (JSONValue.obj [("a", JSONValue.num 1)])
            (JSONValue.obj [("a", JSONValue.num 2)])).modified ↔
        swapMod m ∈ (diffValues (JSONValue.obj [("a", JSONValue.num 2)])
            (JSONValue.obj [("a", JSONValue.num 1)])).modified)) :=
  ⟨by simp [wf, nodupB], by simp [wf, nodupB],
    diff_symmetry (JSONValue.obj [("a", JSONValue.num 1)])
      (JSONValue.obj [("a", JSONValue.num 2)])
      (by simp [wf, nodupB]) (by simp [wf, nodupB])⟩

/-! ## The linter (`JSONLinter` in `src/js/linter.js`)

Texts and messages are lists of characters.  `String.prototype.split('\n')`
is `splitOnNl` (never empty: a text with `n` newlines yields `n + 1`
parts). -/

/-- `text.split('\n')`. -/
def splitOnNl : List Char → List (List Char)
  | [] => [[]]
  | c :: cs =>
    if c = '\n' then [] :: splitOnNl cs
    else
      match splitOnNl cs with
      | [] => [[c]]
      | p :: ps => (c :: p) :: ps

/-- The part of a text after its last newline (the whole text when it has
none). -/
def lastPart : List Char → List Char
  | [] => []
  | c :: cs => if c = '\n' ∨ '\n' ∈ cs then lastPart cs else c :: cs

/-- `JSONLinter.getLineColumnFromPosition` (linter.js 122–131).  `position`
is a JS number: the guard is `position <= 0`; `substring(0, position)`
clamps to the text length. -/
def getLineColumnFromPosition (text : List Char) (position : Int) : Nat × Nat :=
  if position ≤ 0 then (1, 1)
  else
    let beforeError := text.take position.toNat
    let lines := splitOnNl beforeError
    (lines.length, (lines.getLastD []).length + 1)

theorem splitOnNl_exists_cons : ∀ l : List Char, ∃ p ps, splitOnNl l = p :: ps := by
  intro l
  induction l with
  | nil => exact ⟨[], [], rfl⟩
  | cons c cs ih =>
    by_cases h : c = '\n'
    · exact ⟨[], splitOnNl cs, by simp only [splitOnNl, if_pos h]⟩
    · obtain ⟨p, ps, hps⟩ := ih
      exact ⟨c :: p, ps, by simp only [splitOnNl, if_neg h, hps]⟩

theorem splitOnNl_length : ∀ l : List Char,
    (splitOnNl l).length = l.countP (fun c => c == '\n') + 1 := by
  intro l
  induction l with
  | nil => rfl
  | cons c cs ih =>
    by_cases h : c = '\n'
    · simp only [splitOnNl, if_pos h, List.length_cons, ih, List.countP_cons]
      simp [h]
    · obtain ⟨p, ps, hps⟩ := splitOnNl_exists_cons cs
      simp only [splitOnNl, if_neg h, hps]
      rw [hps] at ih
      simp only [List.length_cons] at ih
      simp only [List.length_cons, List.countP_cons]
      have hite : (if (c == '\n') = true then 1 else 0) = 0 := by simp [h]
      rw [hite]
      omega

theorem splitOnNl_no_nl : ∀ {l : List Char}, '\n' ∉ l → splitOnNl l = [l] := by
  intro l
  induction l with
  | nil => intro _; rfl
  | cons c cs ih =>
    intro h
    have hc : ¬c = '\n' := fun hh => h (by simp [hh])
    have hcs : '\n' ∉ cs := fun hh => h (by simp [hh])
    simp only [splitOnNl, if_neg hc, ih hcs]

theorem splitOnNl_getLastD : ∀ l : List Char,
    (splitOnNl l).getLastD [] = lastPart l := by
  intro l
  induction l with
  | nil => rfl
  | cons c cs ih =>
    by_cases h : c = '\n'
    · simp only [splitOnNl, if_pos h, lastPart]
      rw [if_pos (Or.inl h), List.getLastD_cons]
      exact ih
    · obtain ⟨p, ps, hps⟩ := splitOnNl_exists_cons cs
      simp only [splitOnNl, if_neg h, hps]
      cases ps with
      | nil =>
        have hlen : (splitOnNl cs).length = 1 := by rw [hps]; rfl
        rw [splitOnNl_length] at hlen
        have hnn : '\n' ∉ cs := by
          intro hmem
          have hpos : 0 < cs.countP (fun c => c == '\n') :=
            List.countP_pos.mpr ⟨'\n', hmem, by simp⟩
          omega
        have hp : p = cs := by
          have hsp := splitOnNl_no_nl hnn
          rw [hps] at hsp
          injection hsp with h1 h2
        subst hp
        rw [lastPart, if_neg (by push_neg; exact ⟨h, hnn⟩)]
        rfl
      | cons q qs =>
        have hlen : 2 ≤ (splitOnNl cs).length := by
          rw [hps]
          simp_arith
        rw [splitOnNl_length] at hlen
        have hmem : '\n' ∈ cs := by
          rcases List.countP_pos.mp
            (show 0 < cs.countP (fun c => c == '\n') by omega) with ⟨x, hx, hpred⟩
          have hx' : x = '\n' := by simpa using hpred
          rwa [hx'] at hx
        rw [lastPart, if_pos (Or.inr hmem), List.getLastD_cons, List.getLastD_cons]
        rw [hps, List.getLastD_cons, List.getLastD_cons] at ih
        exact ih

/-- Claim C5: the offset-to-position conversion returns
`line = (number of newlines before the offset) + 1` and `column = (length
of the before-offset text after its last newline) + 1`, and every offset
`≤ 0` maps to `(1, 1)`. -/
theorem offset_to_line_column (text : List Char) (position : Int) :
    getLineColumnFromPosition text position =
      if position ≤ 0 then (1, 1)
      else ((text.take position.toNat).countP (fun c => c == '\n') + 1,
        (lastPart (text.take position.toNat)).length + 1) := by
  simp only [getLineColumnFromPosition]
  by_cases h : position ≤ 0
  · rw [if_pos h, if_pos h]
  · rw [if_neg h, if_neg h, splitOnNl_length, splitOnNl_getLastD]

/-- A JS error object as the linter reads it: any of the five properties
may be `undefined` (`none`). -/
structure JSError where
  message : Option (List Char)
  line : Option Nat
  column : Option Nat
  offset : Option Int
  index : Option Int
deriving DecidableEq

/-- The structured content of the messages the two error parsers build:
each constructor is one template of linter.js, carrying exactly the data
interpolated into it. -/
inductive Diag where
  | atLineColCtx (line column : Nat) (message context pointer : List Char)
  | onLineCol (line column : Nat) (message : List Char)
  | onLineOnly (line : Nat) (message : List Char)
  | atLineColToken (line column : Nat) (token context pointer : List Char)
  | endOfInput (line column : Nat)
  | plain (message : List Char)
deriving DecidableEq

/-- `s.substring(a, b)`: clamps to the length and swaps the ends when
`a > b`. -/
def jsSubstring (s : List Char) (a b : Nat) : List Char :=
  (s.take (max a b)).drop (min a b)

/-- The context/pointer computation shared by the located branches
(linter.js 103–108): `Math.max(0, …)` is Nat subtraction here. -/
def lineContext (text : List Char) (line column : Nat) :
    List Char × List Char :=
  let lines := splitOnNl text
  let lineContent := lines.getD (line - 1) []
  let contextStart := column - 25
  let contextEnd := min lineContent.length (column + 25)
  let context := jsSubstring lineContent contextStart contextEnd
  let pointer := List.replicate (column - contextStart - 1) (Char.ofNat 32) ++
    [Char.ofNat 94]
  (context, pointer)

/-- `error.offset || error.index` (linter.js 101): `undefined` and `0` are
falsy, so a present offset `0` falls through to `index`. -/
def jsOrOptInt (o i : Option Int) : Option Int :=
  match o with
  | some v => if v = 0 then i else some v
  | none => i

/-- `getLineColumnFromPosition` when the position may be `undefined`:
`undefined <= 0` is `false` in JS and `substring(0, undefined)` is the
whole text, so an undefined position locates the end of the text. -/
def getLineColumnFromPositionOpt (text : List Char) (position : Option Int) :
    Nat × Nat :=
  match position with
  | some p => getLineColumnFromPosition text p
  | none =>
    let lines := splitOnNl text
    (lines.length, (lines.getLastD []).length + 1)

/-- `JSONLinter.parseBetterError` (linter.js 80–114).  `error.message ||
'Parse error'` also replaces an empty (falsy) message. -/
def parseBetterError (e : JSError) (text : List Char) : Diag :=
  let message := match e.message with
    | some m => if m = [] then "Parse error".data else m
    | none => "Parse error".data
  match e.line, e.column with
  | some line, some column =>
    let cp := lineContext text line column
    .atLineColCtx line column message cp.1 cp.2
  | _, _ =>
    if e.offset.isSome || e.index.isSome then
      let li := getLineColumnFromPositionOpt text (jsOrOptInt e.offset e.index)
      let cp := lineContext text li.1 li.2
      .atLineColCtx li.1 li.2 message cp.1 cp.2
    else
      .plain message

/-- Case-insensitive prefix test (the `/i` regex flag). -/
def matchesAt : List Char → List Char → Bool
  | [], _ => true
  | _ :: _, [] => false
  | p :: ps, c :: cs => (p.toLower == c.toLower) && matchesAt ps cs

/-- `parseInt` on a leading digit run (the greedy `(\d+)` capture). -/
def digitsRead (acc : Nat) : List Char → Nat
  | [] => acc
  | c :: cs => if c.isDigit then digitsRead (acc * 10 + (c.toNat - 48)) cs else acc

/-- `message.match(/<pat>(\d+)/i)`: leftmost occurrence of the keyword
followed by at least one digit; returns the parsed number. -/
def findKeywordNum (pat : List Char) : List Char → Option Nat
  | [] => none
  | c :: cs =>
    if matchesAt pat (c :: cs) then
      match (c :: cs).drop pat.length with
      | d :: ds => if d.isDigit then some (digitsRead 0 (d :: ds))
                   else findKeywordNum pat cs
      | [] => findKeywordNum pat cs
    else findKeywordNum pat cs

/-- Case-sensitive substring test (a flagless literal regex). -/
def containsSub (pat : List Char) : List Char → Bool
  | [] => pat.isEmpty
  | c :: cs => pat.isPrefixOf (c :: cs) || containsSub pat cs

/-- `line.indexOf(token)`. -/
def indexOfSub (pat : List Char) : List Char → Option Nat
  | [] => if pat = [] then some 0 else none
  | c :: cs =>
    if pat.isPrefixOf (c :: cs) then some 0
    else (indexOfSub pat cs).map (· + 1)

/-- Index of the last occurrence of a character. -/
def lastIndexOf (ch : Char) : List Char → Option Nat
  | [] => none
  | c :: cs =>
    match lastIndexOf ch cs with
    | some i => some (i + 1)
    | none => if c = ch then some 0 else none

/-- `message.match(/Unexpected token '(.+)'/)`: after the leftmost
`Unexpected token '`, the greedy capture runs to the last apostrophe and
must be nonempty. -/
def extractTokenQuoted : List Char → Option (List Char)
  | [] => none
  | c :: cs =>
    if ("Unexpected token \x27".data).isPrefixOf (c :: cs) then
      let rest := (c :: cs).drop ("Unexpected token \x27".data).length
      match lastIndexOf (Char.ofNat 39) rest with
      | some i => if 1 ≤ i then some (rest.take i) else extractTokenQuoted cs
      | none => extractTokenQuoted cs
    else extractTokenQuoted cs

/-- One candidate split point of the native-error regex: the separator
` in JSON at position ` matches here, a digit follows, and the greedy
token before it is nonempty. -/
def nativeSepOk (rest : List Char) (i : Nat) : Bool :=
  (" in JSON at position ".data).isPrefixOf (rest.drop i) &&
  (match (rest.drop i).drop (" in JSON at position ".data).length with
   | d :: _ => d.isDigit
   | [] => false) &&
  decide (1 ≤ i)

/-- `message.match(/Unexpected token (.+) in JSON at position (\d+)/)`:
leftmost start, greedy (largest) split. -/
def matchNativeToken : List Char → Option (List Char × Nat)
  | [] => none
  | c :: cs =>
    if ("Unexpected token ".data).isPrefixOf (c :: cs) then
      let rest := (c :: cs).drop ("Unexpected token ".data).length
      match ((List.range (rest.length + 1)).filter fun i =>
          nativeSepOk rest i).getLast? with
      | some i =>
        some (rest.take i,
          digitsRead 0 ((rest.drop i).drop (" in JSON at position ".data).length))
      | none => matchNativeToken cs
    else matchNativeToken cs

/-- The token-search loop of linter.js 270–282: first line containing the
token, with its index and content. -/
def findTokenLine (token : List Char) :
    List (List Char) → Nat → Option (Nat × Nat × List Char)
  | [], _ => none
  | ln :: rest, i =>
    match indexOfSub token ln with
    | some idx => some (i, idx, ln)
    | none => findTokenLine token rest (i + 1)

/-- The body of `JSONLinter.parseError` (linter.js 216–286) once the
message exists, one branch per pattern in source order.  In the `line`
branch a parsed column `0` is falsy (`if (column)`), giving the line-only
format. -/
def parseErrorMsg (message text : List Char) : Diag :=
  match findKeywordNum "line ".data message with
  | some line =>
    match findKeywordNum "column ".data message with
    | some column =>
      if column ≠ 0 then .onLineCol line column message
      else .onLineOnly line message
    | none => .onLineOnly line message
  | none =>
    match findKeywordNum "position ".data message with
    | some position =>
      let li := getLineColumnFromPosition text (Int.ofNat position)
      .onLineCol li.1 li.2 message
    | none =>
      match matchNativeToken message with
      | some tp =>
        let li := getLineColumnFromPosition text (Int.ofNat tp.2)
        let cp := lineContext text li.1 li.2
        .atLineColToken li.1 li.2 tp.1 cp.1 cp.2
      | none =>
        if containsSub "Unexpected end of JSON input".data message then
          let lines := splitOnNl text
          .endOfInput lines.length ((lines.getLastD []).length + 1)
        else
          match extractTokenQuoted message with
          | some token =>
            match findTokenLine token (splitOnNl text) 0 with
            | some r =>
              let contextStart := r.2.1 - 25
              let contextEnd := min r.2.2.length (r.2.1 + 25)
              let context := jsSubstring r.2.2 contextStart contextEnd
              let pointer := List.replicate (r.2.1 - contextStart) (Char.ofNat 32) ++
                [Char.ofNat 94]
              .atLineColToken (r.1 + 1) (r.2.1 + 1) token context pointer
            | none => .plain message
          | none => .plain message

/-- `JSONLinter.parseError` (linter.js 215–286).  Its first statement reads
`error.message` and immediately calls `.match` on it: a missing message is
an uncaught TypeError, modelled as `Except.error`. -/
def parseError (e : JSError) (text : List Char) : Except Unit Diag :=
  match e.message with
  | none => .error ()
  | some message => .ok (parseErrorMsg message text)

/-- Claim C6: the two location paths disagree.  For the error object
`{ offset: 0 }` with message `"Expected value at position 0"` on the text
`"a\nb"`, the enhanced path computes `error.offset || error.index`: the
present offset `0` is falsy, the position becomes `undefined`, and
`parseBetterError` reports the end of the text, line 2 column 2.  The
message-pattern path of `parseError` extracts the same offset `0` from
`position 0` and reports line 1 column 1.  An offset `0` is produced by any
parse failure at the first character, so the required equivalence of the
two paths fails. -/
theorem error_locator_offset_zero_divergence :
    parseBetterError
        ⟨some "Expected value at position 0".data, none, none, some 0, none⟩
        "a\nb".data =
      Diag.atLineColCtx 2 2 "Expected value at position 0".data "b".data
        [Char.ofNat 32, Char.ofNat 94] ∧
    parseError
        ⟨some "Expected value at position 0".data, none, none, some 0, none⟩
        "a\nb".data =
      Except.ok (Diag.onLineCol 1 1 "Expected value at position 0".data) := by
  constructor
  · rfl
  · rfl

/-- Claim C7, counterexample: `parseError`'s first statement calls
`.match` on `error.message`; with the message absent this is an uncaught
TypeError, so the function does throw. -/
theorem parse_error_throws_without_message :
    parseError ⟨none, none, none, none, none⟩ "\x7b".data = Except.error () := rfl

/-- Claim C7, amended: `parseError` throws exactly when the error carries
no message (`parseBetterError` is total since it guards with
`error.message || 'Parse error'`), and when the message is present but no
pattern matches — no `line`/`position` keyword number, no native token
pattern, no `Unexpected end of JSON input`, and any quoted token absent
from every line — the result is the plain `Parse error: <message>` with
the raw message and no location. -/
theorem parse_error_throw_iff_and_fallback :
    (∀ (e : JSError) (t : List Char),
      parseError e t = Except.error () ↔ e.message = none) ∧
    (∀ (m t : List Char),
      findKeywordNum "line ".data m = none →
      findKeywordNum "position ".data m = none →
      matchNativeToken m = none →
      containsSub "Unexpected end of JSON input".data m = false →
      (∀ tok, extractTokenQuoted m = some tok →
        findTokenLine tok (splitOnNl t) 0 = none) →
      parseErrorMsg m t = Diag.plain m) := by
  constructor
  · intro e t
    cases hm : e.message with
    | none => simp [parseError, hm]
    | some m => simp [parseError, hm]
  · intro m t h1 h2 h3 h4 h5
    cases hx : extractTokenQuoted m with
    | none => simp [parseErrorMsg, h1, h2, h3, h4, hx]
    | some tok => simp [parseErrorMsg, h1, h2, h3, h4, hx, h5 tok hx]

/-- Witness for the amended claim C7 at message `"bad"` and text `"{"`:
no pattern matches and the result is the raw message alone. -/
theorem parse_error_throw_iff_and_fallback_witness :
    parseErrorMsg "bad".data "\x7b".data = Diag.plain "bad".data :=
  parse_error_throw_iff_and_fallback.2 "bad".data "\x7b".data rfl rfl rfl rfl
    (fun tok h => by
      rw [show extractTokenQuoted ("bad".data) = none from rfl] at h
      exact Option.noConfusion h)

/-- The whitespace characters `String.prototype.trim` removes (space, tab,
line feed, carriage return, vertical tab, form feed). -/
def isJsWs (c : Char) : Bool :=
  c == Char.ofNat 32 || c == Char.ofNat 9 || c == Char.ofNat 10 ||
  c == Char.ofNat 13 || c == Char.ofNat 11 || c == Char.ofNat 12

/-- `s.trim()`. -/
def jsTrim (s : List Char) : List Char :=
  ((s.dropWhile isJsWs).reverse.dropWhile isJsWs).reverse

/-- The result shape of `JSONLinter.validate`. -/
structure ValidationResult where
  isValid : Bool
  errors : List (List Char)
  data : Option JSONValue
deriving DecidableEq

/-- The result shape of `JSONLinter.format`. -/
structure FormatResult where
  success : Bool
  errors : List (List Char)
  formatted : Option (List Char)
deriving DecidableEq

/-- The result shape of `JSONLinter.compress`. -/
structure CompressResult where
  success : Bool
  errors : List (List Char)
  compressed : Option (List Char)
deriving DecidableEq

/-- `JSONLinter.validate` (linter.js 18–72), over an abstract parser
(which of `JSONParseBetterErrors`/native `JSON.parse` runs, and what it
returns, depends on the environment) and an abstract error formatter for
the catch branch.  The guard is `!jsonString || jsonString.trim() ===
''`. -/
def validate (parse : List Char → Except JSError JSONValue)
    (errFmt : JSError → List Char → List Char) (s : List Char) :
    ValidationResult :=
  if s = [] ∨ jsTrim s = [] then ⟨false, ["Input is empty".data], none⟩
  else
    match parse s with
    | .ok v => ⟨true, [], some v⟩
    | .error e => ⟨false, [errFmt e s], none⟩

/-- `JSONLinter.format` (linter.js 136–169), with `JSON.stringify`
abstract.  The guard is `!jsonString || !jsonString.trim()`. -/
def format (parse : List Char → Except JSError JSONValue)
    (errFmt : JSError → List Char → List Char)
    (stringify : JSONValue → List Char) (s : List Char) : FormatResult :=
  if s = [] ∨ jsTrim s = [] then ⟨false, ["Input is empty".data], none⟩
  else
    let vr := validate parse errFmt s
    if vr.isValid = true then ⟨true, [], vr.data.map stringify⟩
    else ⟨false, vr.errors, none⟩

/-- `JSONLinter.compress` (linter.js 174–207). -/
def compress (parse : List Char → Except JSError JSONValue)
    (errFmt : JSError → List Char → List Char)
    (stringify : JSONValue → List Char) (s : List Char) : CompressResult :=
  if s = [] ∨ jsTrim s = [] then ⟨false, ["Input is empty".data], none⟩
  else
    let vr := validate parse errFmt s
    if vr.isValid = true then ⟨true, [], vr.data.map stringify⟩
    else ⟨false, vr.errors, none⟩

theorem jsTrim_all_ws {s : List Char} (h : ∀ c ∈ s, isJsWs c = true) :
    jsTrim s = [] := by
  have hd : s.dropWhile isJsWs = [] := List.dropWhile_eq_nil_iff.mpr h
  simp [jsTrim, hd]

/-- Claim C10: an input that is empty or all whitespace is rejected by
`validate` with `isValid = false`, the single error `Input is empty` and
`data = null`, and by `format` and `compress` with `success = false` and
the same single error, with nothing thrown. -/
theorem empty_input_rejected (parse : List Char → Except JSError JSONValue)
    (errFmt : JSError → List Char → List Char)
    (stringify : JSONValue → List Char) (s : List Char)
    (h : ∀ c ∈ s, isJsWs c = true) :
    validate parse errFmt s = ⟨false, ["Input is empty".data], none⟩ ∧
    format parse errFmt stringify s = ⟨false, ["Input is empty".data], none⟩ ∧
    compress parse errFmt stringify s = ⟨false, ["Input is empty".data], none⟩ := by
  have hg : s = [] ∨ jsTrim s = [] := Or.inr (jsTrim_all_ws h)
  refine ⟨?_, ?_, ?_⟩
  · rw [validate, if_pos hg]
  · rw [format, if_pos hg]
  · rw [compress, if_pos hg]

/-- Witness for claim C10 at the two-space input `"  "` with a parser that
accepts everything. -/
theorem empty_input_rejected_witness :
    validate (fun _ => Except.ok JSONValue.null) (fun _ _ => []) "  ".data =
      ⟨false, ["Input is empty".data], none⟩ ∧
    format (fun _ => Except.ok JSONValue.null) (fun _ _ => [])
        (fun _ => []) "  ".data =
      ⟨false, ["Input is empty".data], none⟩ ∧
    compress (fun _ => Except.ok JSONValue.null) (fun _ _ => [])
        (fun _ => []) "  ".data =
      ⟨false, ["Input is empty".data], none⟩ :=
  empty_input_rejected (fun _ => Except.ok JSONValue.null) (fun _ _ => [])
    (fun _ => []) "  ".data (by decide)

/-! ## Diff projection (`highlightChanges` / `findLineForPath` in diff.js) -/

/-- `"${key}"`. -/
def quoteKey (k : List Char) : List Char := Char.ofNat 34 :: k ++ [Char.ofNat 34]

/-- A separator of the path regex `/[.\[\]]+/`. -/
def isPathSep (c : Char) : Bool := c == '.' || c == '[' || c == ']'

/-- `path.split(/[.\[\]]+/).filter(part => part !== '')`. -/
def splitPathParts : List Char → List (List Char)
  | [] => []
  | c :: cs =>
    if isPathSep c then splitPathParts cs
    else
      (c :: cs.takeWhile fun d => !isPathSep d) ::
        splitPathParts (cs.dropWhile fun d => !isPathSep d)
termination_by l => l.length
decreasing_by
  · simp_arith
  · have hle := (List.dropWhile_sublist (l := cs) fun d => !isPathSep d).length_le
    simp_arith
    omega

/-- First line (0-based) satisfying a test, as the scanning loops do. -/
def firstLineWith (p : List Char → Bool) : List (List Char) → Nat → Option Nat
  | [], _ => none
  | ln :: rest, i => if p ln then some i else firstLineWith p rest (i + 1)

/-- `path.match(/^(.*?)\[(\d+)\]$/)`: with the end anchor the match exists
exactly when the path ends in `[digits]`, and the split lands on that last
bracket group; returns the prefix and the parsed index. -/
def matchTailIndex (p : List Char) : Option (List Char × Nat) :=
  match p.reverse with
  | c :: rest =>
    if c = ']' then
      let digitsRev := rest.takeWhile Char.isDigit
      let rest2 := rest.dropWhile Char.isDigit
      match rest2 with
      | b :: pre =>
        if b = '[' ∧ digitsRev ≠ [] then
          some (pre.reverse, digitsRead 0 digitsRev.reverse)
        else none
      | [] => none
    else none
  | [] => none

/-- One line of the bracket-depth scan of `findArrayElementLine`
(diff.js 770–778): depth is a JS number and may go negative. -/
def scanLineBrackets : List Char → Int × Bool → Int × Bool
  | [], st => st
  | c :: cs, st =>
    if c = '[' then
      scanLineBrackets cs (st.1 + 1, if st.1 + 1 = 1 then true else st.2)
    else if c = ']' then
      scanLineBrackets cs (st.1 - 1, if st.1 - 1 = 0 then false else st.2)
    else scanLineBrackets cs st

/-- A character of the junk-line class `[\[\],\s]`. -/
def isJunkChar (c : Char) : Bool := c == '[' || c == ']' || c == ',' || isJsWs c

/-- The element-counting loop of `findArrayElementLine` (diff.js 765–800):
per line, update the bracket state over the whole line, then count the line
if it is a non-junk line at depth 1 inside the array, then stop once the
array closed after the start line. -/
def scanArrayAux (target startLine : Nat) :
    List (List Char) → Nat → Int → Bool → Nat → Option Nat
  | [], _, _, _, _ => none
  | ln :: rest, i, depth, inArray, count =>
    let st := scanLineBrackets ln (depth, inArray)
    let isVal := st.2 = true ∧ st.1 = 1 ∧ jsTrim ln ≠ [] ∧
      (jsTrim ln).any (fun c => !isJunkChar c)
    if isVal ∧ count = target then some i
    else if ¬st.2 = true ∧ st.1 = 0 ∧ startLine < i then none
    else scanArrayAux target startLine rest (i + 1) st.1 st.2
      (if isVal then count + 1 else count)

/-- `DiffManager.findArrayElementLine` (diff.js 734–809). -/
def findArrayElementLine (path : String) (lines : List (List Char)) :
    Option Nat :=
  match matchTailIndex path.data with
  | none => none
  | some ai =>
    let startLine :=
      if ai.1 ≠ [] then
        match (splitPathParts ai.1).getLast? with
        | some arrayKey =>
          firstLineWith (fun ln =>
            let t := jsTrim ln
            containsSub (quoteKey arrayKey) t && t.contains ':' &&
              t.contains '[') lines 0
        | none => none
      else some 0
    match startLine with
    | none => none
    | some s0 => scanArrayAux ai.2 s0 (lines.drop s0) s0 0 false 0

/-- `DiffManager.findLineForPath` (diff.js 692–729); the returned column is
always 0, so only the line is modelled. -/
def findLineForPath (path : String) (content : List Char) : Option Nat :=
  let lines := splitOnNl content
  if path.data.contains '[' ∧ path.data.contains ']' then
    findArrayElementLine path lines
  else
    match (splitPathParts path.data).getLast? with
    | some lastKey =>
      match firstLineWith (fun ln =>
          let t := jsTrim ln
          containsSub (quoteKey lastKey) t && t.contains ':') lines 0 with
      | some i => some i
      | none => firstLineWith (fun ln => containsSub (quoteKey lastKey) ln) lines 0
    | none => none

/-- A CodeMirror mark as `highlightChanges` places it: whole line `line`
from column 0 to the line length, with one of the three class names. -/
structure Highlight where
  line : Nat
  endCh : Nat
  className : List Char
deriving DecidableEq

/-- `DiffManager.highlightChanges` (diff.js 644–687): the marks one call
places, in placement order (removed on the left, added on the right,
modified on both sides; records whose path does not resolve are skipped). -/
def highlightChanges (changes : Changes) (content : List Char)
    (side : String) : List Highlight :=
  let lines := splitOnNl content
  (if side = "left" then
    changes.removed.foldl (fun acc ch =>
      match findLineForPath ch.path content with
      | some li => acc ++ [⟨li, (lines.getD li []).length, "diff-removed".data⟩]
      | none => acc) []
  else []) ++
  (if side = "right" then
    changes.added.foldl (fun acc ch =>
      match findLineForPath ch.path content with
      | some li => acc ++ [⟨li, (lines.getD li []).length, "diff-added".data⟩]
      | none => acc) []
  else []) ++
  changes.modified.foldl (fun acc ch =>
    match findLineForPath ch.path content with
    | some li => acc ++ [⟨li, (lines.getD li []).length, "diff-modified".data⟩]
    | none => acc) []

theorem foldl_marks {α : Type _} (f : α → Option Nat) (len : Nat → Nat)
    (cls : List Char) : ∀ (l : List α) (acc : List Highlight),
    l.foldl (fun acc ch =>
      match f ch with
      | some li => acc ++ [⟨li, len li, cls⟩]
      | none => acc) acc
    = acc ++ l.filterMap fun ch =>
        (f ch).map fun li => (⟨li, len li, cls⟩ : Highlight) := by
  intro l
  induction l with
  | nil => intro acc; simp
  | cons x xs ih =>
    intro acc
    rw [List.foldl_cons, List.filterMap_cons]
    cases hx : f x with
    | none => simp [hx, ih]
    | some li => simp [hx, ih]

/-- Claim C8: the marks of one `highlightChanges` call are exactly one
left-side mark per Removed record and one right-side mark per Added record
whose path resolves, plus one mark on either side per resolvable Modified
record; Unchanged records (the `u` argument, absent from the right-hand
side) contribute nothing, unresolvable paths are silently skipped, and the
projection is a total function. -/
theorem diff_projection_highlights (a r : List ValRec) (m : List ModRec)
    (u : List URec) (content : List Char) (side : String) :
    highlightChanges ⟨a, r, m, u⟩ content side =
      (if side = "left" then
        r.filterMap (fun ch => (findLineForPath ch.path content).map fun li =>
          (⟨li, ((splitOnNl content).getD li []).length, "diff-removed".data⟩ :
            Highlight))
      else []) ++
      (if side = "right" then
        a.filterMap (fun ch => (findLineForPath ch.path content).map fun li =>
          (⟨li, ((splitOnNl content).getD li []).length, "diff-added".data⟩ :
            Highlight))
      else []) ++
      m.filterMap (fun ch => (findLineForPath ch.path content).map fun li =>
        (⟨li, ((splitOnNl content).getD li []).length, "diff-modified".data⟩ :
          Highlight)) := by
  simp only [highlightChanges]
  rw [foldl_marks (fun ch : ValRec => findLineForPath ch.path content)
      (fun li => ((splitOnNl content).getD li []).length) ("diff-removed".data) r [],
    foldl_marks (fun ch : ValRec => findLineForPath ch.path content)
      (fun li => ((splitOnNl content).getD li []).length) ("diff-added".data) a [],
    foldl_marks (fun ch : ModRec => findLineForPath ch.path content)
      (fun li => ((splitOnNl content).getD li []).length) ("diff-modified".data) m []]
  simp

/-! ## Tree line mapping (`TreeManager` in `src/unnamed/part_002`)

The path-to-line map is an association list with JS `Map.set` semantics
(update in place, else append). -/

def quoteChar : Char := Char.ofNat 34

/-- `Map.set`. -/
def pmSet : List (String × Nat) → String → Nat → List (String × Nat)
  | [], k, v => [(k, v)]
  | (k', v') :: rest, k, v =>
    if k' = k then (k, v) :: rest else (k', v') :: pmSet rest k v

/-- `Map.has`. -/
def pmHas (m : List (String × Nat)) (k : String) : Bool := (m.lookup k).isSome

/-- `` new RegExp(`^\\s*"${key}"\\s*:`) `` (the key is regex-escaped, hence
literal) tested against a raw line. -/
def keyPatternTest (key : List Char) (ln : List Char) : Bool :=
  let t := ln.dropWhile isJsWs
  if (quoteKey key).isPrefixOf t then
    match (t.drop (quoteKey key).length).dropWhile isJsWs with
    | c :: _ => c == ':'
    | [] => false
  else false

/-- `TreeManager.findObjectKeyLine` (part_002 984–994): first line matching
the key pattern; the `parentPath` argument is ignored by the source. -/
def tmFindObjectKeyLine (lines : List (List Char)) (key : String) : Option Nat :=
  firstLineWith (keyPatternTest key.data) lines 0

/-- One line of the brace scan of `findObjectKeyLineWithContext`
(part_002 1013–1026): `{` raises the depth and enters the parent object on
the parent line or at depth 1; a `}` closing it while inside returns `-1`
from inside the character loop (`none` here). -/
def scanBraceLine (isParentLine : Bool) :
    List Char → Int → Bool → Option (Int × Bool)
  | [], d, ip => some (d, ip)
  | c :: cs, d, ip =>
    if c = '{' then
      scanBraceLine isParentLine cs (d + 1)
        (if isParentLine ∨ d + 1 = 1 then true else ip)
    else if c = '}' then
      if d - 1 = 0 ∧ ip = true then none
      else scanBraceLine isParentLine cs (d - 1) ip
    else scanBraceLine isParentLine cs d ip

/-- The line loop of the nested branch of `findObjectKeyLineWithContext`
(part_002 1010–1032). -/
def ctxScan (key : List Char) : List (List Char) → Nat → Bool → Int → Bool →
    Option Nat
  | [], _, _, _, _ => none
  | ln :: rest, i, first, d, ip =>
    match scanBraceLine first ln d ip with
    | none => none
    | some st =>
      if st.2 = true ∧ 1 ≤ st.1 ∧ keyPatternTest key ln = true then some i
      else ctxScan key rest (i + 1) false st.1 st.2

/-- `TreeManager.findObjectKeyLineWithContext` (part_002 999–1036) on the
reversed parent path: `parentPath[parentPath.length - 1]` is the head and
`parentPath.slice(0, -1)` the tail of the reversal. -/
def ctxFind (lines : List (List Char)) (key : List Char) :
    List String → Option Nat
  | [] => firstLineWith (keyPatternTest key) lines 0
  | parentKey :: restRev =>
    match ctxFind lines parentKey.data restRev with
    | none => none
    | some parentLine =>
      ctxScan key (lines.drop parentLine) parentLine true 0 false

def findObjectKeyLineWithContext (lines : List (List Char)) (key : String)
    (parentPath : List String) : Option Nat :=
  ctxFind lines key.data parentPath.reverse

/-- `\s*,?\s*$` on a line tail. -/
def wsCommaTail (l : List Char) : Bool :=
  match l.dropWhile isJsWs with
  | [] => true
  | c :: rest => c == ',' && (rest.dropWhile isJsWs).isEmpty

/-- `/^\s*\[.*".*"\s*,?\s*$/` on an already-trimmed line: it starts with
`[`, holds at least two quotes, and after its last quote only whitespace
and at most one comma remain. -/
def skipLineMatch (t : List Char) : Bool :=
  match t with
  | [] => false
  | c :: rest =>
    c == '[' &&
    (match lastIndexOf quoteChar rest with
     | some i =>
       decide (2 ≤ (rest.filter fun d => d == quoteChar).length) &&
         wsCommaTail (rest.drop (i + 1))
     | none => false)

/-- `/^\s*"[^"]*"\s*,?\s*$/` on an already-trimmed line: a quoted string
alone, with at most a trailing comma. -/
def elemLineMatch (t : List Char) : Bool :=
  match t with
  | [] => false
  | c :: rest =>
    c == quoteChar &&
    (let inner := rest.takeWhile fun d => d != quoteChar
     match rest.drop inner.length with
     | q :: tail => q == quoteChar && wsCommaTail tail
     | [] => false)

/-- One line of the bracket scan of `TreeManager.findArrayElementLine`
(part_002 890–905): unlike the diff-side scanner, the character loop breaks
as soon as the depth returns to 0. -/
def trackBrackets : List Char → Int → Bool → Bool → Int × Bool × Bool
  | [], d, ia, fs => (d, ia, fs)
  | c :: cs, d, ia, fs =>
    if c = '[' then
      trackBrackets cs (d + 1) (if d + 1 = 1 then true else ia)
        (if d + 1 = 1 then true else fs)
    else if c = ']' then
      if d - 1 = 0 then (d - 1, false, fs)
      else trackBrackets cs (d - 1) ia fs
    else trackBrackets cs d ia fs

/-- The element-counting loop of `TreeManager.findArrayElementLine`
(part_002 886–926 and its root-level copy): lines that contain `[` without
being a one-line `["…"]` are skipped (`continue`), only lone quoted-string
lines count as elements. -/
def arrElemScan (target startLine : Nat) :
    List (List Char) → Nat → Int → Bool → Bool → Nat → Option Nat
  | [], _, _, _, _, _ => none
  | ln :: rest, i, d, ia, fs, count =>
    let st := trackBrackets ln d ia fs
    let t := jsTrim ln
    if st.2.1 = true ∧ st.2.2 = true ∧ st.1 = 1 then
      if t.contains '[' ∧ ¬skipLineMatch t = true then
        arrElemScan target startLine rest (i + 1) st.1 st.2.1 st.2.2 count
      else if elemLineMatch t = true then
        if count = target then some i
        else arrElemScan target startLine rest (i + 1) st.1 st.2.1 st.2.2 (count + 1)
      else arrElemScan target startLine rest (i + 1) st.1 st.2.1 st.2.2 count
    else
      if ¬st.2.1 = true ∧ st.1 = 0 ∧ startLine < i then none
      else arrElemScan target startLine rest (i + 1) st.1 st.2.1 st.2.2 count

/-- `TreeManager.findArrayElementLine` (part_002 874–977). -/
def tmFindArrayElementLine (lines : List (List Char)) (parentPath : List String)
    (elementIndex : Nat) : Option Nat :=
  if parentPath ≠ [] then
    match parentPath.getLast? with
    | some parentKey =>
      match tmFindObjectKeyLine lines parentKey with
      | none => none
      | some pl => arrElemScan elementIndex pl (lines.drop pl) pl 0 false false 0
    | none => none
  else arrElemScan elementIndex 0 lines 0 0 false false 0

/-- The two writes one located object key performs (part_002 856–863):
the full dotted path unconditionally, the bare key name only when absent. -/
def objKeyWrite (m : List (String × Nat)) (fullKey key : String) (ln : Nat) :
    List (String × Nat) :=
  let ma := pmSet m fullKey ln
  if pmHas ma key = true then ma else pmSet ma key ln

mutual

/-- `TreeManager.mapJsonStructureToLines` (part_002 846–869). -/
def mapJsonStructureToLines (data : JSONValue) (lines : List (List Char))
    (m : List (String × Nat)) (currentPath : List String) :
    List (String × Nat) :=
  match data with
  | .arr items => mapArrItems items 0 lines m currentPath
  | .obj fields => mapObjFields fields lines m currentPath
  | _ => m
termination_by (sizeOf data, 0)
decreasing_by
  · apply Prod.Lex.left
    simp_arith
  · apply Prod.Lex.left
    simp_arith

/-- The `data.forEach((item, index) => …)` loop of the array branch: the
element key `${currentPath.join('.')}.${index}` is written twice (both
source writes build the same string). -/
def mapArrItems (items : List JSONValue) (idx : Nat) (lines : List (List Char))
    (m : List (String × Nat)) (currentPath : List String) :
    List (String × Nat) :=
  match items with
  | [] => m
  | item :: rest =>
    let elementKey := String.intercalate "." currentPath ++ "." ++ natKey idx
    let m1 := match tmFindArrayElementLine lines currentPath idx with
      | some ln => pmSet (pmSet m elementKey ln) elementKey ln
      | none => m
    let m2 := if isCont item = true then
        mapJsonStructureToLines item lines m1 (currentPath ++ [natKey idx])
      else m1
    mapArrItems rest (idx + 1) lines m2 currentPath
termination_by (sizeOf items, 1)
decreasing_by
  · apply Prod.Lex.left
    simp_arith
  · apply Prod.Lex.left
    simp_arith

/-- The `Object.entries(data).forEach(([key, value]) => …)` loop of the
object branch. -/
def mapObjFields (fields : List (String × JSONValue)) (lines : List (List Char))
    (m : List (String × Nat)) (currentPath : List String) :
    List (String × Nat) :=
  match fields with
  | [] => m
  | (key, value) :: rest =>
    let fullKey := String.intercalate "." (currentPath ++ [key])
    let m1 := match findObjectKeyLineWithContext lines key currentPath with
      | some ln => objKeyWrite m fullKey key ln
      | none => m
    let m2 := if isCont value = true then
        mapJsonStructureToLines value lines m1 (currentPath ++ [key])
      else m1
    mapObjFields rest lines m2 currentPath
termination_by (sizeOf fields, 1)
decreasing_by
  · apply Prod.Lex.left
    simp_arith
  · apply Prod.Lex.left
    simp_arith

end

/-- The key regex of the secondary scan, `/^"([^"]+)"\s*:/` on a trimmed
line, returning the captured key. -/
def lineKeyOf (t : List Char) : Option (List Char) :=
  match t with
  | [] => none
  | c :: rest =>
    if c = quoteChar then
      let inner := rest.takeWhile fun d => d != quoteChar
      if inner ≠ [] then
        match rest.drop inner.length with
        | q :: tail =>
          if q = quoteChar then
            match tail.dropWhile isJsWs with
            | c2 :: _ => if c2 = ':' then some inner else none
            | [] => none
          else none
        | [] => none
      else none
    else none

/-- The secondary scan of `createLineMapping` (part_002 789–805): bare keys
guarded, `__line_N` markers for lone braces unguarded. -/
def scanKeysTry : List (List Char) → Nat → List (String × Nat) →
    List (String × Nat)
  | [], _, m => m
  | ln :: rest, i, m =>
    let t := jsTrim ln
    let m1 := match lineKeyOf t with
      | some k => if pmHas m ⟨k⟩ = true then m else pmSet m ⟨k⟩ i
      | none => m
    let m2 := if t = "\x7b".data ∨ t = "[".data then
        pmSet m1 ("__line_" ++ natKey i) i
      else m1
    scanKeysTry rest (i + 1) m2

/-- The catch-branch scan of `createLineMapping` (part_002 808–816): the
key write is unguarded. -/
def scanKeysCatch : List (List Char) → Nat → List (String × Nat) →
    List (String × Nat)
  | [], _, m => m
  | ln :: rest, i, m =>
    let m1 := match lineKeyOf (jsTrim ln) with
      | some k => pmSet m ⟨k⟩ i
      | none => m
    scanKeysCatch rest (i + 1) m1

/-- `TreeManager.createLineMapping` (part_002 777–821), over an abstract
`JSON.parse` (`none` = throw). -/
def createLineMapping (parse : List Char → Option JSONValue)
    (content : List Char) : List (String × Nat) :=
  let lines := splitOnNl content
  match parse content with
  | some jsonData =>
    scanKeysTry lines 0 (mapJsonStructureToLines jsonData lines [] [])
  | none => scanKeysCatch lines 0 []

theorem lookup_pmSet_self : ∀ (m : List (String × Nat)) (k : String) (v : Nat),
    (pmSet m k v).lookup k = some v := by
  intro m k v
  induction m with
  | nil => simp [pmSet, List.lookup]
  | cons e rest ih =>
    obtain ⟨k', v'⟩ := e
    rw [pmSet]
    by_cases h : k' = k
    · subst h
      simp [List.lookup]
    · rw [if_neg h]
      simp only [List.lookup,
        show (k == k') = false from beq_false_of_ne fun hh => h hh.symm]
      exact ih

theorem lookup_pmSet_ne : ∀ (m : List (String × Nat)) (k k' : String) (v : Nat),
    k' ≠ k → (pmSet m k v).lookup k' = m.lookup k' := by
  intro m k k' v hne
  induction m with
  | nil => simp [pmSet, List.lookup, beq_false_of_ne hne]
  | cons e rest ih =>
    obtain ⟨k1, v1⟩ := e
    rw [pmSet]
    by_cases h : k1 = k
    · subst h
      simp [List.lookup, beq_false_of_ne hne]
    · rw [if_neg h]
      simp only [List.lookup]
      cases hk : k' == k1
      · exact ih
      · rfl

/-- Claim C9, amended: a located object key always records its full dotted
path — `lookup fullKey` is the located line right after the write — while
the bare-key slot is written only when absent: a pre-existing bare entry
survives and an absent one receives the located line, both provided no
collision (`fullKey ≠ key`).  When the full dotted path of a later key
collides with a bare key name (a key containing dots, or at the root where
`fullKey = key`), the unguarded full-path write does overwrite the
bare-key slot, so the first-occurrence guarantee holds only for uncollided
names. -/
theorem line_map_key_write_semantics :
    (∀ (m : List (String × Nat)) (fullKey key : String) (ln : Nat),
      (objKeyWrite m fullKey key ln).lookup fullKey = some ln) ∧
    (∀ (m : List (String × Nat)) (fullKey key : String) (ln v : Nat),
      m.lookup key = some v → fullKey ≠ key →
      (objKeyWrite m fullKey key ln).lookup key = some v) ∧
    (∀ (m : List (String × Nat)) (fullKey key : String) (ln : Nat),
      m.lookup key = none → fullKey ≠ key →
      (objKeyWrite m fullKey key ln).lookup key = some ln) := by
  refine ⟨?_, ?_, ?_⟩
  · intro m fullKey key ln
    rw [objKeyWrite]
    by_cases h : pmHas (pmSet m fullKey ln) key = true
    · rw [if_pos h]
      exact lookup_pmSet_self m fullKey ln
    · rw [if_neg h]
      have hne : fullKey ≠ key := by
        intro heq
        subst heq
        rw [pmHas, lookup_pmSet_self] at h
        simp at h
      rw [lookup_pmSet_ne _ key fullKey ln hne]
      exact lookup_pmSet_self m fullKey ln
  · intro m fullKey key ln v hv hne
    have hma : (pmSet m fullKey ln).lookup key = some v := by
      rw [lookup_pmSet_ne _ fullKey key ln (fun h => hne h.symm)]
      exact hv
    rw [objKeyWrite, if_pos (by rw [pmHas, hma]; rfl)]
    exact hma
  · intro m fullKey key ln hv hne
    have hma : (pmSet m fullKey ln).lookup key = none := by
      rw [lookup_pmSet_ne _ fullKey key ln (fun h => hne h.symm)]
      exact hv
    rw [objKeyWrite, if_neg (by rw [pmHas, hma]; simp)]
    exact lookup_pmSet_self _ key ln

/-- Witness for the amended claim C9 at `fullKey = "a.k"`, `key = "k"`. -/
theorem line_map_key_write_semantics_witness :
    (objKeyWrite [("k", 0)] "a.k" "k" 5).lookup "a.k" = some 5 ∧
    (objKeyWrite [("k", 0)] "a.k" "k" 5).lookup "k" = some 0 ∧
    (objKeyWrite [] "a.k" "k" 5).lookup "k" = some 5 :=
  ⟨line_map_key_write_semantics.1 [("k", 0)] "a.k" "k" 5,
   line_map_key_write_semantics.2.1 [("k", 0)] "a.k" "k" 5 0 rfl (by decide),
   line_map_key_write_semantics.2.2 [] "a.k" "k" 5 rfl (by decide)⟩

/-- Claim C9, counterexample: in the document

`{ "a.k": 2, "a": { "k": 1 } }`

(one key per line) the bare name `a.k` is recorded at its first occurrence,
line 1, but the later nested key `k` under `a` has the full dotted path
`a.k`, whose unguarded write overwrites that slot with line 3: after the
build the entry for `a.k` is 3, not the first occurrence of the name. -/
theorem line_map_bare_key_overwritten :
    (createLineMapping
        (fun _ => some (JSONValue.obj [("a.k", JSONValue.num 2),
          ("a", JSONValue.obj [("k", JSONValue.num 1)])]))
        "\x7b\n\"a.k\": 2,\n\"a\": \x7b\n\"k\": 1\n\x7d\n\x7d".data).lookup "a.k" =
      some 3 ∧
    firstLineWith (keyPatternTest "a.k".data)
      (splitOnNl "\x7b\n\"a.k\": 2,\n\"a\": \x7b\n\"k\": 1\n\x7d\n\x7d".data) 0 = some 1 := by
  constructor
  · have h1 : findObjectKeyLineWithContext
        (splitOnNl "\x7b\n\"a.k\": 2,\n\"a\": \x7b\n\"k\": 1\n\x7d\n\x7d".data)
        "a.k" [] = some 1 := rfl
    have h2 : findObjectKeyLineWithContext
        (splitOnNl "\x7b\n\"a.k\": 2,\n\"a\": \x7b\n\"k\": 1\n\x7d\n\x7d".data)
        "a" [] = some 2 := rfl
    have h3 : findObjectKeyLineWithContext
        (splitOnNl "\x7b\n\"a.k\": 2,\n\"a\": \x7b\n\"k\": 1\n\x7d\n\x7d".data)
        "k" ["a"] = some 3 := rfl
    simp only [createLineMapping, mapJsonStructureToLines, mapObjFields,
      List.nil_append, isCont, h1, h2, h3]
    rfl
  · rfl
